import Mathlib

/-!
# sdl_engine: the scanline rasterizer `polyfill` and the vertex transform `rotate`

A shallow embedding of `src/sdl_engine/main.cpp` (lines 9-107 and the polygon of `main`).

* In `polyfill`, `float` values are modelled by exact rationals (`ℚ`).  A division by
  zero, which IEEE arithmetic answers with an infinity or a NaN, is answered by `0` here;
  every division is recorded in the event log together with its divisor.  The values
  computed from such a quotient are read only inside a loop, and that loop is shown to
  run no iteration whatever these values are.
* In `rotate`, every `float` operation is rounded to binary32 (round to nearest, ties to
  even) by `f32`; an operation whose result leaves the finite range gives `none`.
* `int` values are modelled by `Int`: `(int)floor(f)` is the floor, `(int)f` is the
  truncation towards zero.  The places where the 32-bit range matters are stated
  explicitly with `INT_MIN`, `INT_MAX` and `fitsInt`; conversions to `unsigned int` and
  to `unsigned char` reduce modulo `2^32` and `2^8`.
* The span table is modelled by a function of the index; `spanIndex_bounds` shows that
  a run only uses indices inside the table.
* `polyfill` is instrumented: `polyfillLog` is the ordered log of the events of a run
  (divisions, row iterations, span-table accesses, span fills, pixel stores).
  `polyfill` does not read the pixel buffer, so the buffer after the run is obtained by
  performing the byte stores of the log in order; a store outside the buffer is a fault.
* `rotate` takes the `float` values of `cos(angle)` and `sin(angle)` as arguments.
-/

namespace SdlEngine

/-! ## Data model -/

/-- `const unsigned int WIDTH = 256;` -/
def WIDTH : Int := 256

/-- `const unsigned int HEIGHT = 128;` -/
def HEIGHT : Int := 128

/-- The largest value of a 32-bit `int`. -/
def INT_MAX : Int := 2147483647

/-- The smallest value of a 32-bit `int`. -/
def INT_MIN : Int := -2147483648

/-- The alpha byte written by `polyfill` (`SDL_ALPHA_OPAQUE`). -/
def SDL_ALPHA_OPAQUE : Nat := 255

/-- `struct FPoint { float x; float y; float u; float v; }`. -/
structure FPoint where
  x : ℚ
  y : ℚ
  u : ℚ
  v : ℚ
deriving DecidableEq

/-- The value-initialised point `{}`. -/
def FPoint.zero : FPoint := ⟨0, 0, 0, 0⟩

/-- A value lies in the range of a 32-bit `int`. -/
def fitsInt (z : Int) : Prop := INT_MIN ≤ z ∧ z ≤ INT_MAX

instance (z : Int) : Decidable (fitsInt z) := by
  unfold fitsInt
  infer_instance

/-- The conversion `(int)f` of a float: truncation towards zero. -/
def truncToInt (q : ℚ) : Int := if 0 ≤ q then ⌊q⌋ else ⌈q⌉

/-- The conversion of an `int` to `unsigned char`. -/
def toByte (z : Int) : Nat := (z % 256).toNat

/-- The conversion of an `int` to `unsigned int`. -/
def wrapU32 (z : Int) : Nat := (z % 4294967296).toNat

/-- The events of a run of `polyfill`, in program order. -/
inductive Event where
  /-- one of the divisions by `dy` of lines 38-40, with the divisor -/
  | edgeDiv (dy : ℚ)
  /-- an iteration of the row loop (line 55) at row `y` with the running `x, u, v` -/
  | row (y : Int) (x u v : ℚ)
  /-- the read `spans[y - ymin]` of line 57, with the index -/
  | spanRead (idx : Int)
  /-- the write `spans[y - ymin] = ...` of line 89, with the index -/
  | spanWrite (idx : Int)
  /-- the span branch of lines 59-85 is entered for row `y` with the ordered ends -/
  | fill (y : Int) (x0 x1 : FPoint)
  /-- one of the divisions by `ddx` of lines 71-72, with the divisor -/
  | spanDiv (ddx : ℚ)
  /-- the four byte stores of lines 77-81 for the cell `(xx, y)`, with green and red -/
  | pixel (xx y : Int) (g r : Nat)
deriving DecidableEq

/-- The span table `std::vector<std::pair<bool, FPoint>>`, by index: the flag `first` and
the recorded point `second` of each entry. -/
abbrev Spans := Int → Bool × FPoint

/-- The table after `spans(ymax - ymin + 1, { false, {} })`. -/
def Spans.init : Spans := fun _ => (false, FPoint.zero)

/-! ## polyfill -/

/-- Lines 20-25: the running minimum of `(int)floor(it->y)`, from `INT_MAX`. -/
def polyYmin (poly : List FPoint) : Int :=
  poly.foldl (fun ymin p => min ymin ⌊p.y⌋) INT_MAX

/-- Lines 20-25: the running maximum of `(int)floor(it->y)`, from `INT_MIN`. -/
def polyYmax (poly : List FPoint) : Int :=
  poly.foldl (fun ymax p => max ymax ⌊p.y⌋) INT_MIN

/-- Line 26: the size `ymax - ymin + 1` of the span table, as a mathematical integer. -/
def spanTableSize (poly : List FPoint) : Int :=
  polyYmax poly - polyYmin poly + 1

/-- The locals of one edge iteration when the row loop is reached (lines 30-54). -/
structure EdgeVars where
  p0 : FPoint
  p1 : FPoint
  dy : ℚ
  dx : ℚ
  du : ℚ
  dv : ℚ
  suby : ℚ
  x : ℚ
  u : ℚ
  v : ℚ
deriving DecidableEq

/-- Lines 30-54: ordering of the end points, per-row deltas, clip to row 0, sub-pixel
start.  The arguments are `poly[i]` and `poly[(i + 1) % n]`. -/
def edgeSetup (a b : FPoint) : EdgeVars :=
  let p0 : FPoint := if a.y > b.y then b else a
  let p1 : FPoint := if a.y > b.y then a else b
  let dy := p1.y - p0.y
  let dx := (p1.x - p0.x) / dy
  let du := (p1.u - p0.u) / dy
  let dv := (p1.v - p0.v) / dy
  let p0 : FPoint :=
    if p0.y < 0 then ⟨p0.x - p0.y * dx, 0, p0.u - p0.y * du, p0.v - p0.y * dv⟩ else p0
  let suby : ℚ := (⌊p0.y⌋ : ℚ) - p0.y + 1
  ⟨p0, p1, dy, dx, du, dv, suby, p0.x + dx * suby, p0.u + du * suby, p0.v + dv * suby⟩

/-- Lines 76-85: the column loop; the first argument is the number of iterations left. -/
def colLoop (y : Int) (ddu ddv : ℚ) : Nat → Int → ℚ → ℚ → List Event
  | 0, _, _, _ => []
  | k + 1, xx, uu, vv =>
    Event.pixel xx y (toByte (64 * ⌊4 * uu⌋)) (toByte (64 * ⌊4 * vv⌋))
      :: colLoop y ddu ddv k (xx + 1) (uu + ddu) (vv + ddv)

/-- Lines 59-85: the span branch, for the recorded point `span` and the running
`x, y, u, v`. -/
def fillRow (span : FPoint) (x : ℚ) (y : Int) (u v : ℚ) : List Event :=
  let a : FPoint := span
  let b : FPoint := ⟨x, y, u, v⟩
  let x0 : FPoint := if a.x > b.x then b else a
  let x1 : FPoint := if a.x > b.x then a else b
  let ddx := x1.x - x0.x
  let ddu := (x1.u - x0.u) / ddx
  let ddv := (x1.v - x0.v) / ddx
  let subx : ℚ := (⌊x0.x⌋ : ℚ) - x0.x + 1
  let uu := x0.u + ddu * subx
  let vv := x0.v + ddv * subx
  Event.fill y x0 x1 :: Event.spanDiv ddx :: Event.spanDiv ddx ::
    colLoop y ddu ddv (min WIDTH (truncToInt x1.x) - truncToInt x0.x).toNat
      (truncToInt x0.x) uu vv

/-- Lines 56-90: the body of the row loop before the stepping of `x, u, v`. -/
def rowBody (ymin : Int) (y : Int) (x u v : ℚ) (spans : Spans) : Spans × List Event :=
  let span := spans (y - ymin)
  if span.1 then
    (spans, Event.row y x u v :: Event.spanRead (y - ymin) :: fillRow span.2 x y u v)
  else
    (Function.update spans (y - ymin) (true, ⟨x, y, u, v⟩),
      [Event.row y x u v, Event.spanRead (y - ymin), Event.spanWrite (y - ymin)])

/-- Lines 55-94: the row loop; the first argument is the number of iterations left. -/
def rowLoop (ymin : Int) (dx du dv : ℚ) :
    Nat → Int → ℚ → ℚ → ℚ → Spans → Spans × List Event
  | 0, _, _, _, _, spans => (spans, [])
  | k + 1, y, x, u, v, spans =>
    let r := rowBody ymin y x u v spans
    let rest := rowLoop ymin dx du dv k (y + 1) (x + dx) (u + du) (v + dv) r.1
    (rest.1, r.2 ++ rest.2)

/-- The first row of the row loop of an edge, `(int)floor(p0.y)`. -/
def EdgeVars.yStart (e : EdgeVars) : Int := ⌊e.p0.y⌋

/-- The bound of the row loop of an edge, `std::min((int)HEIGHT, (int)floor(p1.y))`. -/
def EdgeVars.yEnd (e : EdgeVars) : Int := min HEIGHT ⌊e.p1.y⌋

/-- Lines 30-94: one iteration of the edge loop. -/
def polyfillEdge (ymin : Int) (a b : FPoint) (spans : Spans) : Spans × List Event :=
  let e := edgeSetup a b
  let r := rowLoop ymin e.dx e.du e.dv (e.yEnd - e.yStart).toNat e.yStart e.x e.u e.v spans
  (r.1, Event.edgeDiv e.dy :: Event.edgeDiv e.dy :: Event.edgeDiv e.dy :: r.2)

/-- The pairs `(poly[i], poly[(i + 1) % n])` for `i = 0 .. n - 1` (lines 28-31). -/
def polyEdges (poly : List FPoint) : List (FPoint × FPoint) :=
  (List.range poly.length).map fun i =>
    (poly.getD i FPoint.zero, poly.getD ((i + 1) % poly.length) FPoint.zero)

/-- Lines 29-95: the edge loop over a list of edges. -/
def edgeLoop (ymin : Int) : List (FPoint × FPoint) → Spans → Spans × List Event
  | [], spans => (spans, [])
  | e :: es, spans =>
    let r := polyfillEdge ymin e.1 e.2 spans
    let rest := edgeLoop ymin es r.1
    (rest.1, r.2 ++ rest.2)

/-- The event log of `polyfill(pixels, poly)`. -/
def polyfillLog (poly : List FPoint) : List Event :=
  (edgeLoop (polyYmin poly) (polyEdges poly) Spans.init).2

/-! ## The pixel buffer -/

/-- The pixel buffer `std::vector<unsigned char>`. -/
abbrev Pixels := Array Nat

/-- The number of bytes of the buffer of `main`, `WIDTH * HEIGHT * 4`. -/
def NUM_BYTES : Nat := 131072

/-- The buffer of `main` after `pixels.assign(pixels.size(), 0)`. -/
def Pixels.zero : Pixels := mkArray NUM_BYTES 0

/-- Lines 67 and 77: `offset = baseOffset + xx * 4` with `baseOffset = WIDTH * 4 * y`,
as an `unsigned int`. -/
def pixelOffset (xx y : Int) : Nat := wrapU32 (WIDTH * 4 * y + xx * 4)

/-- The byte stores `pixels[offset + k] = value` of a log, as `(index, value)`, in
program order (lines 78-81). -/
def byteStores : List Event → List (Nat × Nat)
  | [] => []
  | Event.pixel xx y g r :: es =>
    (pixelOffset xx y + 0, 0) :: (pixelOffset xx y + 1, g) :: (pixelOffset xx y + 2, r) ::
      (pixelOffset xx y + 3, SDL_ALPHA_OPAQUE) :: byteStores es
  | _ :: es => byteStores es

/-- Performs byte stores in order; `none` when a store falls outside the buffer. -/
def storeAll : List (Nat × Nat) → Pixels → Option Pixels
  | [], pixels => some pixels
  | s :: ss, pixels =>
    if s.1 < pixels.size then storeAll ss (pixels.setD s.1 s.2) else none

/-- The buffer after `polyfill(pixels, poly)`; `none` when a store falls outside it. -/
def polyfill (pixels : Pixels) (poly : List FPoint) : Option Pixels :=
  storeAll (byteStores (polyfillLog poly)) pixels

/-! ## rotate -/

/-- The largest finite `float`, `(2^24 - 1) * 2^104`. -/
def FLT_MAX : ℚ := (2 ^ 24 - 1) * 2 ^ 104

/-- The nearest integer, the even one of the two at a tie. -/
def roundHalfEven (r : ℚ) : Int :=
  if r - ⌊r⌋ < 1 / 2 then ⌊r⌋
  else if 1 / 2 < r - ⌊r⌋ then ⌊r⌋ + 1
  else if ⌊r⌋ % 2 = 0 then ⌊r⌋ else ⌊r⌋ + 1

/-- The `float` that an operation with the exact result `x` returns: `x` rounded to a
significand of 24 bits at the exponent of `x` (not below -126, which gives the
subnormals), to nearest and ties to even; `none` when the rounded value exceeds
`FLT_MAX`, where the operation returns an infinity. -/
def f32 (x : ℚ) : Option ℚ :=
  let e : Int := max (Int.log 2 |x|) (-126)
  let r : ℚ := roundHalfEven (x / 2 ^ (e - 23)) * 2 ^ (e - 23)
  if |r| ≤ FLT_MAX then some r else none

/-- The value is a finite `float`. -/
def isF32 (x : ℚ) : Prop := f32 x = some x

instance (x : ℚ) : Decidable (isF32 x) := by
  unfold isF32
  infer_instance

/-- Lines 98-107, with `cs = cos(angle)` and `ss = sin(angle)` supplied as `float`s.
Each subtraction, multiplication and addition is rounded to `float`, in the order of
the source: `tmp = p - center` (line 99), `center.x + cs * tmp.x + ss * tmp.y`
(line 103) and `center.y + ss * tmp.x - cs * tmp.y` (line 104). -/
def rotate (p center : FPoint) (cs ss : ℚ) : Option FPoint :=
  (f32 (p.x - center.x)).bind fun tmpx =>
  (f32 (p.y - center.y)).bind fun tmpy =>
  (f32 (cs * tmpx)).bind fun m1 =>
  (f32 (center.x + m1)).bind fun s1 =>
  (f32 (ss * tmpy)).bind fun m2 =>
  (f32 (s1 + m2)).bind fun x =>
  (f32 (ss * tmpx)).bind fun m3 =>
  (f32 (center.y + m3)).bind fun s2 =>
  (f32 (cs * tmpy)).bind fun m4 =>
  (f32 (s2 - m4)).bind fun y =>
  some ⟨x, y, p.u, p.v⟩

/-! ## The polygons of the scenarios -/

/-- Lines 182-186: the base polygon of `main`. -/
def square : List FPoint :=
  [⟨32, 32, 0, 0⟩, ⟨96, 32, 1, 0⟩, ⟨96, 96, 1, 1⟩, ⟨32, 96, 0, 1⟩]

/-- A rectangle that leaves the buffer on the left, in rows 0 and 1. -/
def leftPoly : List FPoint :=
  [⟨-2, 0, 0, 0⟩, ⟨2, 0, 1, 0⟩, ⟨2, 2, 1, 1⟩, ⟨-2, 2, 0, 1⟩]

/-! ## Vocabulary of the properties -/

/-- The value of the last store of a list at byte index `i`, if there is one. -/
def lastStore : List (Nat × Nat) → Nat → Option Nat
  | [], _ => none
  | s :: ss, i =>
    match lastStore ss i with
    | some b => some b
    | none => if s.1 = i then some s.2 else none

/-- The event is a pixel store. -/
def isPixel : Event → Bool
  | Event.pixel _ _ _ _ => true
  | _ => false

/-- The event is an iteration of the row loop at row `r`. -/
def isRowAt (r : Int) : Event → Bool
  | Event.row y _ _ _ => decide (y = r)
  | _ => false

/-- The event is the entry of the span branch at row `r`. -/
def isFillAt (r : Int) : Event → Bool
  | Event.fill y _ _ => decide (y = r)
  | _ => false

/-- The row loop of the edge iteration for `(ed.1, ed.2)` visits row `r`. -/
def crossesRow (r : Int) (ed : FPoint × FPoint) : Bool :=
  decide ((edgeSetup ed.1 ed.2).yStart ≤ r ∧ r < (edgeSetup ed.1 ed.2).yEnd)

/-- The position of a vertex lies inside the buffer. -/
def insideBuffer (p : FPoint) : Prop :=
  0 ≤ p.x ∧ p.x < WIDTH ∧ 0 ≤ p.y ∧ p.y < HEIGHT

instance (p : FPoint) : Decidable (insideBuffer p) := by
  unfold insideBuffer
  infer_instance

/-- Twice the signed area of the triangle `a b c`: positive for one turning direction,
negative for the other, zero for collinear points. -/
def orient (a b c : FPoint) : ℚ :=
  (b.x - a.x) * (c.y - a.y) - (b.y - a.y) * (c.x - a.x)

/-- The pairs of elements of a list, in list order. -/
def pairsOf : List FPoint → List (FPoint × FPoint)
  | [] => []
  | a :: l => l.map (fun b => (a, b)) ++ pairsOf l

/-- The triples of elements of a list, in list order. -/
def triplesOf : List FPoint → List (FPoint × FPoint × FPoint)
  | [] => []
  | a :: l => (pairsOf l).map (fun bc => (a, bc)) ++ triplesOf l

/-- A convex simple polygon given by its vertices in boundary order: the positions of
the vertices are pairwise distinct, any three vertices taken in list order turn the same
way or are collinear, and the vertices are not all collinear. -/
def ConvexPolygon (poly : List FPoint) : Prop :=
  (poly.map fun p => (p.x, p.y)).Nodup ∧
  ((∀ t ∈ triplesOf poly, 0 ≤ orient t.1 t.2.1 t.2.2) ∨
    (∀ t ∈ triplesOf poly, orient t.1 t.2.1 t.2.2 ≤ 0)) ∧
  ∃ t ∈ triplesOf poly, orient t.1 t.2.1 t.2.2 ≠ 0

instance (poly : List FPoint) : Decidable (ConvexPolygon poly) := by
  unfold ConvexPolygon
  infer_instance

/-- The number of places where two neighbours of a list of booleans differ. -/
def changes : List Bool → Nat
  | a :: b :: l => (if a = b then 0 else 1) + changes (b :: l)
  | _ => 0

/-- The alternating list `b, !b, b, ...` of length `n`. -/
def altList : Bool → Nat → List Bool
  | _, 0 => []
  | b, n + 1 => b :: altList (!b) n

/-! ## Membership in the event log -/

theorem colLoop_eq (y : Int) (ddu ddv : ℚ) : ∀ (k : Nat) (xx : Int) (uu vv : ℚ),
    colLoop y ddu ddv k xx uu vv = (List.range k).map fun i : Nat =>
      Event.pixel (xx + i) y (toByte (64 * ⌊4 * (uu + i * ddu)⌋))
        (toByte (64 * ⌊4 * (vv + i * ddv)⌋))
  | 0, _, _, _ => rfl
  | k + 1, xx, uu, vv => by
    rw [colLoop, colLoop_eq y ddu ddv k, List.range_succ_eq_map, List.map_cons, List.map_map]
    congr 1
    · simp
    · apply List.map_congr_left
      intro i _
      simp only [Function.comp, Nat.cast_succ]
      have e1 : xx + 1 + (i : Int) = xx + ((i : Int) + 1) := by ring
      have e2 : uu + ddu + (i : ℚ) * ddu = uu + ((i : ℚ) + 1) * ddu := by ring
      have e3 : vv + ddv + (i : ℚ) * ddv = vv + ((i : ℚ) + 1) * ddv := by ring
      rw [e1, e2, e3]

theorem mem_colLoop {y : Int} {ddu ddv : ℚ} {k : Nat} {xx : Int} {uu vv : ℚ} {e : Event}
    (h : e ∈ colLoop y ddu ddv k xx uu vv) :
    ∃ i : Nat, i < k ∧ e = Event.pixel (xx + i) y (toByte (64 * ⌊4 * (uu + i * ddu)⌋))
        (toByte (64 * ⌊4 * (vv + i * ddv)⌋)) := by
  rw [colLoop_eq, List.mem_map] at h
  obtain ⟨i, hi, rfl⟩ := h
  exact ⟨i, List.mem_range.1 hi, rfl⟩

theorem mem_rowLoop {ymin : Int} {dx du dv : ℚ} : ∀ (k : Nat) (y : Int) (x u v : ℚ)
    (sp : Spans) (e : Event), e ∈ (rowLoop ymin dx du dv k y x u v sp).2 →
    ∃ (i : Nat) (sp1 : Spans), i < k ∧
      e ∈ (rowBody ymin (y + i) (x + i * dx) (u + i * du) (v + i * dv) sp1).2
  | 0, _, _, _, _, _, e, h => by simp [rowLoop] at h
  | k + 1, y, x, u, v, sp, e, h => by
    simp only [rowLoop, List.mem_append] at h
    rcases h with h | h
    · exact ⟨0, sp, Nat.succ_pos k, by simpa using h⟩
    · obtain ⟨i, sp1, hi, he⟩ := mem_rowLoop k _ _ _ _ _ e h
      refine ⟨i + 1, sp1, Nat.succ_lt_succ hi, ?_⟩
      have e1 : y + ((i + 1 : Nat) : Int) = y + 1 + i := by push_cast; ring
      have e2 : x + ((i + 1 : Nat) : ℚ) * dx = x + dx + i * dx := by push_cast; ring
      have e3 : u + ((i + 1 : Nat) : ℚ) * du = u + du + i * du := by push_cast; ring
      have e4 : v + ((i + 1 : Nat) : ℚ) * dv = v + dv + i * dv := by push_cast; ring
      rw [e1, e2, e3, e4]
      exact he

theorem row_mem_rowBody {ymin y : Int} {x u v : ℚ} {sp : Spans} {y1 : Int} {x1 u1 v1 : ℚ} :
    Event.row y1 x1 u1 v1 ∈ (rowBody ymin y x u v sp).2 ↔
      y1 = y ∧ x1 = x ∧ u1 = u ∧ v1 = v := by
  unfold rowBody
  by_cases h : (sp (y - ymin)).1 = true
  · simp [h, fillRow, colLoop_eq]
  · simp [h]

theorem row_mem_rowLoop {ymin : Int} {dx du dv : ℚ} {y1 : Int} {x1 u1 v1 : ℚ} :
    ∀ (k : Nat) (y : Int) (x u v : ℚ) (sp : Spans),
    Event.row y1 x1 u1 v1 ∈ (rowLoop ymin dx du dv k y x u v sp).2 ↔
      ∃ i : Nat, i < k ∧ y1 = y + i ∧ x1 = x + i * dx ∧ u1 = u + i * du ∧ v1 = v + i * dv
  | 0, _, _, _, _, _ => by simp [rowLoop]
  | k + 1, y, x, u, v, sp => by
    simp only [rowLoop, List.mem_append, row_mem_rowBody, row_mem_rowLoop k]
    constructor
    · rintro (⟨h1, h2, h3, h4⟩ | ⟨i, hi, h1, h2, h3, h4⟩)
      · exact ⟨0, Nat.succ_pos k, by simp [h1], by simp [h2], by simp [h3], by simp [h4]⟩
      · refine ⟨i + 1, Nat.succ_lt_succ hi, ?_, ?_, ?_, ?_⟩
        · rw [h1]; push_cast; ring
        · rw [h2]; push_cast; ring
        · rw [h3]; push_cast; ring
        · rw [h4]; push_cast; ring
    · rintro ⟨i, hi, h1, h2, h3, h4⟩
      cases i with
      | zero => left; exact ⟨by simpa using h1, by simpa using h2, by simpa using h3, by simpa using h4⟩
      | succ j =>
        right
        refine ⟨j, Nat.lt_of_succ_lt_succ hi, ?_, ?_, ?_, ?_⟩
        · rw [h1]; push_cast; ring
        · rw [h2]; push_cast; ring
        · rw [h3]; push_cast; ring
        · rw [h4]; push_cast; ring

theorem mem_edgeLoop {ymin : Int} : ∀ (es : List (FPoint × FPoint)) (sp : Spans) (e : Event),
    e ∈ (edgeLoop ymin es sp).2 →
    ∃ (ed : FPoint × FPoint) (sp1 : Spans), ed ∈ es ∧ e ∈ (polyfillEdge ymin ed.1 ed.2 sp1).2
  | [], _, e, h => by simp [edgeLoop] at h
  | ed :: es, sp, e, h => by
    simp only [edgeLoop, List.mem_append] at h
    rcases h with h | h
    · exact ⟨ed, sp, List.mem_cons_self _ _, h⟩
    · obtain ⟨ed1, sp1, h1, h2⟩ := mem_edgeLoop es _ e h
      exact ⟨ed1, sp1, List.mem_cons_of_mem _ h1, h2⟩

theorem mem_polyEdges {poly : List FPoint} {ed : FPoint × FPoint} (h : ed ∈ polyEdges poly) :
    ed.1 ∈ poly ∧ ed.2 ∈ poly := by
  simp only [polyEdges, List.mem_map, List.mem_range] at h
  obtain ⟨i, hi, rfl⟩ := h
  have hn : (i + 1) % poly.length < poly.length := Nat.mod_lt _ (by omega)
  constructor
  · simp only [List.getD_eq_getElem _ _ hi]
    exact List.getElem_mem _
  · simp only [List.getD_eq_getElem _ _ hn]
    exact List.getElem_mem _

/-! ## The rows of an edge and the span table -/

theorem foldl_min_le (f : FPoint → Int) : ∀ (l : List FPoint) (init : Int),
    l.foldl (fun m p => min m (f p)) init ≤ init ∧
      ∀ p ∈ l, l.foldl (fun m p => min m (f p)) init ≤ f p
  | [], init => ⟨le_refl _, fun p hp => by simp at hp⟩
  | q :: l, init => by
    obtain ⟨h1, h2⟩ := foldl_min_le f l (min init (f q))
    simp only [List.foldl_cons]
    refine ⟨le_trans h1 (min_le_left _ _), fun p hp => ?_⟩
    rcases List.mem_cons.1 hp with rfl | hp
    · exact le_trans h1 (min_le_right _ _)
    · exact h2 p hp

theorem le_foldl_max (f : FPoint → Int) : ∀ (l : List FPoint) (init : Int),
    init ≤ l.foldl (fun m p => max m (f p)) init ∧
      ∀ p ∈ l, f p ≤ l.foldl (fun m p => max m (f p)) init
  | [], init => ⟨le_refl _, fun p hp => by simp at hp⟩
  | q :: l, init => by
    obtain ⟨h1, h2⟩ := le_foldl_max f l (max init (f q))
    simp only [List.foldl_cons]
    refine ⟨le_trans (le_max_left _ _) h1, fun p hp => ?_⟩
    rcases List.mem_cons.1 hp with rfl | hp
    · exact le_trans (le_max_right _ _) h1
    · exact h2 p hp

theorem polyYmin_le {poly : List FPoint} {p : FPoint} (hp : p ∈ poly) :
    polyYmin poly ≤ ⌊p.y⌋ :=
  (foldl_min_le (fun p => ⌊p.y⌋) poly INT_MAX).2 p hp

theorem le_polyYmax {poly : List FPoint} {p : FPoint} (hp : p ∈ poly) :
    ⌊p.y⌋ ≤ polyYmax poly :=
  (le_foldl_max (fun p => ⌊p.y⌋) poly INT_MIN).2 p hp

theorem edgeSetup_p1 (a b : FPoint) : (edgeSetup a b).p1 = if a.y > b.y then a else b := rfl

theorem edgeSetup_p0_y (a b : FPoint) : (edgeSetup a b).p0.y =
    if (if a.y > b.y then b else a).y < 0 then 0 else (if a.y > b.y then b else a).y := by
  simp only [edgeSetup]
  split_ifs <;> rfl

/-- The rows of an edge start at or after the first row of the polygon. -/
theorem polyYmin_le_yStart {poly : List FPoint} {a b : FPoint} (ha : a ∈ poly)
    (hb : b ∈ poly) : polyYmin poly ≤ (edgeSetup a b).yStart := by
  unfold EdgeVars.yStart
  rw [edgeSetup_p0_y]
  have h1 := polyYmin_le ha
  have h2 := polyYmin_le hb
  split_ifs with h3 h4 h5
  · have : ⌊b.y⌋ ≤ ⌊(0 : ℚ)⌋ := Int.floor_le_floor (le_of_lt h4)
    exact le_trans h2 this
  · exact h2
  · have : ⌊a.y⌋ ≤ ⌊(0 : ℚ)⌋ := Int.floor_le_floor (le_of_lt h5)
    exact le_trans h1 this
  · exact h1

/-- The rows of an edge end at or before the last row of the polygon. -/
theorem yEnd_le_polyYmax {poly : List FPoint} {a b : FPoint} (ha : a ∈ poly)
    (hb : b ∈ poly) : (edgeSetup a b).yEnd ≤ polyYmax poly := by
  unfold EdgeVars.yEnd
  rw [edgeSetup_p1]
  refine le_trans (min_le_right _ _) ?_
  split_ifs
  · exact le_polyYmax ha
  · exact le_polyYmax hb

theorem span_mem_rowBody (ymin y : Int) (x u v : ℚ) (sp : Spans) (idx : Int)
    (h : Event.spanRead idx ∈ (rowBody ymin y x u v sp).2 ∨
      Event.spanWrite idx ∈ (rowBody ymin y x u v sp).2) : idx = y - ymin := by
  unfold rowBody at h
  by_cases hs : (sp (y - ymin)).1 = true
  · simpa [hs, fillRow, colLoop_eq] using h
  · simpa [hs] using h

/-- Every event of an edge iteration other than the three divisions comes from the body
of the row loop at a row between `yStart` and `yEnd`. -/
theorem mem_polyfillEdge {ymin : Int} {a b : FPoint} {sp : Spans} {e : Event}
    (h : e ∈ (polyfillEdge ymin a b sp).2) :
    e = Event.edgeDiv (edgeSetup a b).dy ∨
    ∃ (y : Int) (x u v : ℚ) (sp1 : Spans), (edgeSetup a b).yStart ≤ y ∧
      y < (edgeSetup a b).yEnd ∧ e ∈ (rowBody ymin y x u v sp1).2 := by
  simp only [polyfillEdge, List.mem_cons] at h
  rcases h with h | h | h | h
  · exact Or.inl h
  · exact Or.inl h
  · exact Or.inl h
  · right
    obtain ⟨i, sp1, hi, he⟩ := mem_rowLoop _ _ _ _ _ _ e h
    refine ⟨_, _, _, _, sp1, ?_, ?_, he⟩
    · omega
    · omega

/-- Every span-table index of a run lies inside the table of `ymax - ymin + 1` entries. -/
theorem spanIndex_bounds (poly : List FPoint) (idx : Int)
    (h : Event.spanRead idx ∈ polyfillLog poly ∨ Event.spanWrite idx ∈ polyfillLog poly) :
    0 ≤ idx ∧ idx < spanTableSize poly := by
  have key : ∀ e : Event, e ∈ polyfillLog poly → (e = Event.spanRead idx ∨ e = Event.spanWrite idx) →
      0 ≤ idx ∧ idx < spanTableSize poly := by
    intro e he hidx
    obtain ⟨ed, sp1, hed, he1⟩ := mem_edgeLoop _ _ e he
    obtain ⟨ha, hb⟩ := mem_polyEdges hed
    rcases mem_polyfillEdge he1 with h1 | ⟨y, x, u, v, sp2, hy1, hy2, he2⟩
    · rcases hidx with h2 | h2 <;> rw [h2] at h1 <;> cases h1
    · have hi : idx = y - polyYmin poly := by
        apply span_mem_rowBody (polyYmin poly) y x u v sp2 idx
        rcases hidx with h2 | h2
        · left; rw [← h2]; exact he2
        · right; rw [← h2]; exact he2
      have h3 := polyYmin_le_yStart ha hb
      have h4 := yEnd_le_polyYmax ha hb
      unfold spanTableSize
      omega
  rcases h with h | h
  · exact key _ h (Or.inl rfl)
  · exact key _ h (Or.inr rfl)


/-! ## The points of an edge -/

theorem edgeSetup_swap {a b : FPoint} (h : a.y < b.y) : edgeSetup b a = edgeSetup a b := by
  have h1 : ¬ a.y > b.y := not_lt.2 (le_of_lt h)
  simp only [edgeSetup, gt_iff_lt, h, h1, if_true, if_false]

theorem polyfillEdge_swap (ymin : Int) {a b : FPoint} (h : a.y < b.y) (sp : Spans) :
    polyfillEdge ymin b a sp = polyfillEdge ymin a b sp := by
  simp only [polyfillEdge, edgeSetup_swap h]

/-- The rows visited by a non-horizontal edge from `a` down to `b`, and the values of
`x, u, v` at each of them: the points of the line through `a` and `b` at height `y + 1`. -/
theorem edge_row_iff (ymin : Int) (a b : FPoint) (sp : Spans) (hab : a.y < b.y)
    (y : Int) (x u v : ℚ) :
    Event.row y x u v ∈ (polyfillEdge ymin a b sp).2 ↔
      max 0 ⌊a.y⌋ ≤ y ∧ y < min HEIGHT ⌊b.y⌋ ∧
      x = a.x + (y + 1 - a.y) * ((b.x - a.x) / (b.y - a.y)) ∧
      u = a.u + (y + 1 - a.y) * ((b.u - a.u) / (b.y - a.y)) ∧
      v = a.v + (y + 1 - a.y) * ((b.v - a.v) / (b.y - a.y)) := by
  have h1 : ¬ a.y > b.y := not_lt.2 (le_of_lt hab)
  simp only [polyfillEdge, List.mem_cons, reduceCtorEq, false_or, row_mem_rowLoop, EdgeVars.yStart,
    EdgeVars.yEnd, edgeSetup, gt_iff_lt, h1, if_false]
  by_cases h0 : a.y < 0
  · have hfl : ⌊a.y⌋ ≤ 0 := by
      have := Int.floor_le_floor (le_of_lt h0)
      simpa using this
    simp only [h0, if_true, Int.floor_zero, Int.cast_zero, sub_zero, zero_add, mul_one]
    rw [max_eq_left hfl]
    constructor
    · rintro ⟨i, hi, rfl, rfl, rfl, rfl⟩
      refine ⟨by omega, by omega, ?_, ?_, ?_⟩ <;> push_cast <;> ring
    · rintro ⟨hy0, hy1, rfl, rfl, rfl⟩
      refine ⟨y.toNat, by omega, by omega, ?_, ?_, ?_⟩
      all_goals
        have hc : ((y.toNat : Nat) : ℚ) = (y : ℚ) := by
          have : ((y.toNat : Nat) : Int) = y := Int.toNat_of_nonneg hy0
          exact_mod_cast this
        rw [hc]; ring
  · have hfl : 0 ≤ ⌊a.y⌋ := Int.floor_nonneg.2 (not_lt.1 h0)
    simp only [h0, if_false]
    rw [max_eq_right hfl]
    constructor
    · rintro ⟨i, hi, rfl, rfl, rfl, rfl⟩
      refine ⟨by omega, by omega, ?_, ?_, ?_⟩ <;> push_cast <;> ring
    · rintro ⟨hy0, hy1, rfl, rfl, rfl⟩
      refine ⟨(y - ⌊a.y⌋).toNat, by omega, by omega, ?_, ?_, ?_⟩
      all_goals
        have hc : (((y - ⌊a.y⌋).toNat : Nat) : ℚ) = (y : ℚ) - (⌊a.y⌋ : ℚ) := by
          have : (((y - ⌊a.y⌋).toNat : Nat) : Int) = y - ⌊a.y⌋ :=
            Int.toNat_of_nonneg (by omega)
          exact_mod_cast this
        rw [hc]; ring


/-! ## Horizontal edges and polygons with fewer than three vertices -/

theorem edgeSetup_horizontal_rows {a b : FPoint} (h : a.y = b.y) :
    (edgeSetup a b).yEnd ≤ (edgeSetup a b).yStart := by
  unfold EdgeVars.yEnd EdgeVars.yStart
  rw [edgeSetup_p1, edgeSetup_p0_y]
  have h1 : ¬ a.y > b.y := by rw [h]; exact lt_irrefl _
  simp only [h1, if_false]
  refine le_trans (min_le_right _ _) ?_
  rw [← h]
  split_ifs with h0
  · exact Int.floor_le_floor (le_of_lt h0)
  · exact le_refl _

theorem edgeSetup_horizontal_dy {a b : FPoint} (h : a.y = b.y) : (edgeSetup a b).dy = 0 := by
  have h1 : ¬ a.y > b.y := by rw [h]; exact lt_irrefl _
  simp only [edgeSetup, h1, if_false]
  rw [h, sub_self]

/-- An edge iteration for a horizontal edge divides by zero three times, runs no
iteration of the row loop and leaves the span table as it is. -/
theorem polyfillEdge_horizontal (ymin : Int) (a b : FPoint) (sp : Spans) (h : a.y = b.y) :
    polyfillEdge ymin a b sp =
      (sp, [Event.edgeDiv 0, Event.edgeDiv 0, Event.edgeDiv 0]) := by
  have hk : ((edgeSetup a b).yEnd - (edgeSetup a b).yStart).toNat = 0 := by
    have := edgeSetup_horizontal_rows h
    omega
  simp only [polyfillEdge, hk, rowLoop, edgeSetup_horizontal_dy h]

/-- The row loop changes the span table only at the indices of its rows. -/
theorem rowLoop_frame {ymin : Int} {dx du dv : ℚ} : ∀ (k : Nat) (y : Int) (x u v : ℚ)
    (sp : Spans) (j : Int), (j < y - ymin ∨ y - ymin + k ≤ j) →
    (rowLoop ymin dx du dv k y x u v sp).1 j = sp j
  | 0, _, _, _, _, _, _, _ => rfl
  | k + 1, y, x, u, v, sp, j, hj => by
    simp only [rowLoop]
    rw [rowLoop_frame k (y + 1) _ _ _ _ j (by push_cast at hj; omega)]
    by_cases hs : (sp (y - ymin)).1 = true
    · simp only [rowBody, hs, if_true]
    · simp only [rowBody, hs, if_false]
      exact Function.update_noteq (by push_cast at hj; omega) _ _

theorem not_pixel_rowBody_of_unset {ymin y : Int} {x u v : ℚ} {sp : Spans}
    (h : (sp (y - ymin)).1 = false) :
    rowBody ymin y x u v sp = (Function.update sp (y - ymin) (true, ⟨x, y, u, v⟩),
      [Event.row y x u v, Event.spanRead (y - ymin), Event.spanWrite (y - ymin)]) := by
  simp [rowBody, h]

/-- On rows without a recorded point the row loop records the running point of each row
and stores no pixel. -/
theorem rowLoop_fresh (ymin : Int) (dx du dv : ℚ) : ∀ (k : Nat) (y : Int) (x u v : ℚ)
    (sp : Spans), (∀ i : Nat, i < k → (sp (y + i - ymin)).1 = false) →
    (∀ e ∈ (rowLoop ymin dx du dv k y x u v sp).2, isPixel e = false) ∧
    (∀ i : Nat, i < k → (rowLoop ymin dx du dv k y x u v sp).1 (y + i - ymin) =
      (true, ⟨x + i * dx, ((y + i : Int) : ℚ), u + i * du, v + i * dv⟩))
  | 0, _, _, _, _, _, _ => by simp [rowLoop]
  | k + 1, y, x, u, v, sp, h => by
    have h0 : (sp (y - ymin)).1 = false := by simpa using h 0 (Nat.succ_pos k)
    have hrest : ∀ i : Nat, i < k →
        ((Function.update sp (y - ymin) (true, (⟨x, y, u, v⟩ : FPoint))) (y + 1 + i - ymin)).1
          = false := by
      intro i hi
      rw [Function.update_noteq (by omega)]
      have := h (i + 1) (Nat.succ_lt_succ hi)
      have e1 : y + ((i + 1 : Nat) : Int) - ymin = y + 1 + i - ymin := by push_cast; ring
      rw [e1] at this
      exact this
    obtain ⟨ih1, ih2⟩ := rowLoop_fresh ymin dx du dv k (y + 1) (x + dx)
      (u + du) (v + dv) _ hrest
    simp only [rowLoop, not_pixel_rowBody_of_unset h0]
    constructor
    · intro e he
      rcases List.mem_append.1 he with he | he
      · simp only [List.mem_cons, List.mem_singleton, List.not_mem_nil, or_false] at he
        rcases he with rfl | rfl | rfl <;> rfl
      · exact ih1 e he
    · intro i hi
      cases i with
      | zero =>
        have e0 : y + ((0 : Nat) : Int) - ymin = y - ymin := by push_cast; ring
        rw [e0, rowLoop_frame k (y + 1) _ _ _ _ _ (by left; omega), Function.update_same]
        simp
      | succ j =>
        have := ih2 j (Nat.lt_of_succ_lt_succ hi)
        have e1 : y + ((j + 1 : Nat) : Int) - ymin = y + 1 + j - ymin := by push_cast; ring
        rw [e1, this]
        congr 2
        · push_cast; ring
        · push_cast; ring
        · push_cast; ring
        · push_cast; ring

theorem colLoop_zero_of_eq (y : Int) (ddu ddv : ℚ) (x : ℚ) (uu vv : ℚ) :
    colLoop y ddu ddv (min WIDTH (truncToInt x) - truncToInt x).toNat (truncToInt x) uu vv
      = [] := by
  have : (min WIDTH (truncToInt x) - truncToInt x).toNat = 0 := by
    have := min_le_right WIDTH (truncToInt x)
    omega
  rw [this]
  rfl

/-- The span branch stores no pixel when the recorded point has the running `x`. -/
theorem not_pixel_fillRow_of_eq {span : FPoint} {x : ℚ} {y : Int} {u v : ℚ}
    (h : span.x = x) : ∀ e ∈ fillRow span x y u v, isPixel e = false := by
  intro e he
  have h1 : ¬ span.x > x := by rw [h]; exact lt_irrefl _
  simp only [fillRow, h1, if_false, List.mem_cons] at he
  rw [show span.x = x from h] at he
  have hc := colLoop_zero_of_eq y ((u - span.u) / (x - x)) ((v - span.v) / (x - x)) x
  simp only at hc
  rw [hc] at he
  simp only [List.not_mem_nil, or_false] at he
  rcases he with rfl | rfl | rfl <;> rfl

/-- On rows whose recorded point has the running `x` the row loop stores no pixel. -/
theorem rowLoop_paired (ymin : Int) (dx du dv : ℚ) : ∀ (k : Nat) (y : Int) (x u v : ℚ)
    (sp : Spans), (∀ i : Nat, i < k → (sp (y + i - ymin)).1 = true ∧
      (sp (y + i - ymin)).2.x = x + i * dx) →
    ∀ e ∈ (rowLoop ymin dx du dv k y x u v sp).2, isPixel e = false
  | 0, _, _, _, _, _, _ => by simp [rowLoop]
  | k + 1, y, x, u, v, sp, h => by
    obtain ⟨h0, h0x⟩ : (sp (y - ymin)).1 = true ∧ (sp (y - ymin)).2.x = x := by
      simpa using h 0 (Nat.succ_pos k)
    have hb : rowBody ymin y x u v sp = (sp, Event.row y x u v ::
        Event.spanRead (y - ymin) :: fillRow (sp (y - ymin)).2 x y u v) := by
      simp [rowBody, h0]
    have hrest : ∀ i : Nat, i < k → (sp (y + 1 + i - ymin)).1 = true ∧
        (sp (y + 1 + i - ymin)).2.x = x + dx + i * dx := by
      intro i hi
      have := h (i + 1) (Nat.succ_lt_succ hi)
      have e1 : y + ((i + 1 : Nat) : Int) - ymin = y + 1 + i - ymin := by push_cast; ring
      have e2 : x + ((i + 1 : Nat) : ℚ) * dx = x + dx + i * dx := by push_cast; ring
      rw [e1, e2] at this
      exact this
    have ih := rowLoop_paired ymin dx du dv k (y + 1) (x + dx)
      (u + du) (v + dv) sp hrest
    simp only [rowLoop, hb]
    intro e he
    rcases List.mem_append.1 he with he | he
    · simp only [List.mem_cons] at he
      rcases he with rfl | rfl | he
      · rfl
      · rfl
      · exact not_pixel_fillRow_of_eq h0x e he
    · exact ih e he

theorem byteStores_of_no_pixel : ∀ (log : List Event), (∀ e ∈ log, isPixel e = false) →
    byteStores log = []
  | [], _ => rfl
  | e :: es, h => by
    have h1 := h e (List.mem_cons_self _ _)
    have h2 := byteStores_of_no_pixel es (fun e he => h e (List.mem_cons_of_mem _ he))
    cases e <;> first | exact h2 | (simp [isPixel] at h1)

theorem polyEdges_nil : polyEdges [] = [] := rfl

theorem polyEdges_one (a : FPoint) : polyEdges [a] = [(a, a)] := by
  simp [polyEdges, List.range_succ]

theorem polyEdges_two (a b : FPoint) : polyEdges [a, b] = [(a, b), (b, a)] := by
  simp [polyEdges, List.range_succ]

/-- The two edge iterations of a two-vertex polygon store no pixel. -/
theorem no_pixel_two (ymin : Int) (a b : FPoint) :
    ∀ e ∈ (edgeLoop ymin [(a, b), (b, a)] Spans.init).2, isPixel e = false := by
  have key : ∀ a b : FPoint, a.y < b.y →
      ∀ e ∈ (edgeLoop ymin [(a, b), (b, a)] Spans.init).2, isPixel e = false := by
    intro a b hab e he
    simp only [edgeLoop, polyfillEdge_swap ymin hab, List.append_nil] at he
    simp only [polyfillEdge, List.mem_append, List.mem_cons] at he
    have hfresh := rowLoop_fresh ymin (edgeSetup a b).dx
      (edgeSetup a b).du (edgeSetup a b).dv
      ((edgeSetup a b).yEnd - (edgeSetup a b).yStart).toNat (edgeSetup a b).yStart
      (edgeSetup a b).x (edgeSetup a b).u (edgeSetup a b).v Spans.init (fun _ _ => rfl)
    have hpaired := rowLoop_paired ymin (edgeSetup a b).dx
      (edgeSetup a b).du (edgeSetup a b).dv
      ((edgeSetup a b).yEnd - (edgeSetup a b).yStart).toNat (edgeSetup a b).yStart
      (edgeSetup a b).x (edgeSetup a b).u (edgeSetup a b).v
      (rowLoop ymin (edgeSetup a b).dx (edgeSetup a b).du (edgeSetup a b).dv
        ((edgeSetup a b).yEnd - (edgeSetup a b).yStart).toNat (edgeSetup a b).yStart
        (edgeSetup a b).x (edgeSetup a b).u (edgeSetup a b).v Spans.init).1
      (fun i hi => by rw [hfresh.2 i hi]; exact ⟨rfl, rfl⟩)
    rcases he with (rfl | rfl | rfl | he) | (rfl | rfl | rfl | he)
    · rfl
    · rfl
    · rfl
    · exact hfresh.1 e he
    · rfl
    · rfl
    · rfl
    · exact hpaired e he
  rcases lt_trichotomy a.y b.y with h | h | h
  · exact key a b h
  · intro e he
    simp only [edgeLoop, polyfillEdge_horizontal ymin a b _ h,
      polyfillEdge_horizontal ymin b a _ h.symm, List.append_nil, List.mem_append,
      List.mem_cons, List.not_mem_nil, or_false] at he
    rcases he with (rfl | rfl | rfl) | (rfl | rfl | rfl) <;> rfl
  · intro e he
    have hsw : edgeLoop ymin [(a, b), (b, a)] Spans.init
        = edgeLoop ymin [(b, a), (a, b)] Spans.init := by
      simp only [edgeLoop, polyfillEdge_swap ymin h]
    rw [hsw] at he
    exact key b a h e he

/-- A polygon with fewer than three vertices stores no pixel. -/
theorem no_pixel_of_length_lt_three (poly : List FPoint) (h : poly.length < 3) :
    ∀ e ∈ polyfillLog poly, isPixel e = false := by
  match poly, h with
  | [], _ => intro e he; simp [polyfillLog, polyEdges_nil, edgeLoop] at he
  | [a], _ =>
    intro e he
    rw [polyfillLog, polyEdges_one] at he
    simp only [edgeLoop, polyfillEdge_horizontal _ a a _ rfl,
      List.append_nil, List.mem_cons, List.not_mem_nil, or_false] at he
    rcases he with rfl | rfl | rfl <;> rfl
  | [a, b], _ =>
    rw [polyfillLog, polyEdges_two]
    exact no_pixel_two _ a b
  | _ :: _ :: _ :: _, h => simp at h; omega

/-! ## The pixel buffer -/

theorem getD_setD (a : Array Nat) (j v i d : Nat) (hj : j < a.size) :
    (a.setD j v).getD i d = if j = i then v else a.getD i d := by
  have hset : a.setD j v = a.set ⟨j, hj⟩ v := by simp [Array.setD, hj]
  rw [hset, Array.getD_eq_get?, Array.getD_eq_get?]
  by_cases h : j = i
  · subst h
    rw [if_pos rfl, Array.getElem?_set_eq]
    rfl
  · rw [if_neg h, Array.getElem?_set_ne a ⟨j, hj⟩ v h]

theorem storeAll_size : ∀ (ss : List (Nat × Nat)) (px out : Pixels),
    storeAll ss px = some out → out.size = px.size
  | [], px, out, h => by
    simp only [storeAll, Option.some.injEq] at h
    rw [← h]
  | s :: ss, px, out, h => by
    simp only [storeAll] at h
    split_ifs at h with hs
    have := storeAll_size ss _ _ h
    rw [this, Array.size_setD]

theorem storeAll_none_of_mem : ∀ (ss : List (Nat × Nat)) (px : Pixels) (s : Nat × Nat),
    s ∈ ss → px.size ≤ s.1 → storeAll ss px = none
  | [], _, _, h, _ => by simp at h
  | t :: ss, px, s, h, hle => by
    simp only [storeAll]
    split_ifs with ht
    · rcases List.mem_cons.1 h with h | h
      · subst h; omega
      · exact storeAll_none_of_mem ss _ s h (by rw [Array.size_setD]; exact hle)
    · rfl

theorem storeAll_isSome : ∀ (ss : List (Nat × Nat)) (px : Pixels),
    (∀ s ∈ ss, s.1 < px.size) → ∃ out, storeAll ss px = some out
  | [], px, _ => ⟨px, rfl⟩
  | t :: ss, px, h => by
    simp only [storeAll]
    rw [if_pos (h t (List.mem_cons_self _ _))]
    apply storeAll_isSome ss
    intro s hs
    rw [Array.size_setD]
    exact h s (List.mem_cons_of_mem _ hs)

/-- After the stores, a byte holds the value of the last store at its index, or its
old value when there is none. -/
theorem storeAll_getD : ∀ (ss : List (Nat × Nat)) (px out : Pixels) (i d : Nat),
    storeAll ss px = some out → out.getD i d = (lastStore ss i).getD (px.getD i d)
  | [], px, out, i, d, h => by
    simp only [storeAll, Option.some.injEq] at h
    simp [lastStore, h]
  | s :: ss, px, out, i, d, h => by
    simp only [storeAll] at h
    split_ifs at h with hs
    rw [storeAll_getD ss _ _ i d h, getD_setD _ _ _ _ _ hs]
    simp only [lastStore]
    cases lastStore ss i with
    | some b => simp
    | none =>
      by_cases hi : s.1 = i
      · simp [hi]
      · simp [hi]

theorem lastStore_none : ∀ (ss : List (Nat × Nat)) (i : Nat), (∀ s ∈ ss, s.1 ≠ i) →
    lastStore ss i = none
  | [], _, _ => rfl
  | s :: ss, i, h => by
    simp only [lastStore]
    rw [lastStore_none ss i (fun t ht => h t (List.mem_cons_of_mem _ ht))]
    simp [h s (List.mem_cons_self _ _)]

theorem lastStore_const : ∀ (ss : List (Nat × Nat)) (i b : Nat), (∃ s ∈ ss, s.1 = i) →
    (∀ s ∈ ss, s.1 = i → s.2 = b) → lastStore ss i = some b
  | [], _, _, h, _ => by simp at h
  | s :: ss, i, b, hex, hall => by
    simp only [lastStore]
    by_cases h1 : ∃ t ∈ ss, t.1 = i
    · rw [lastStore_const ss i b h1 (fun t ht => hall t (List.mem_cons_of_mem _ ht))]
    · rw [lastStore_none ss i (fun t ht hti => h1 ⟨t, ht, hti⟩)]
      obtain ⟨t, ht, hti⟩ := hex
      rcases List.mem_cons.1 ht with rfl | ht
      · simp [hti, ← hall t (List.mem_cons_self _ _) hti]
      · exact absurd ⟨t, ht, hti⟩ h1

theorem mem_byteStores : ∀ (log : List Event) (s : Nat × Nat), s ∈ byteStores log ↔
    ∃ xx y g r, Event.pixel xx y g r ∈ log ∧
      (s = (pixelOffset xx y + 0, 0) ∨ s = (pixelOffset xx y + 1, g) ∨
        s = (pixelOffset xx y + 2, r) ∨ s = (pixelOffset xx y + 3, SDL_ALPHA_OPAQUE))
  | [], s => by simp [byteStores]
  | e :: es, s => by
    cases e with
    | pixel xx y g r =>
      simp only [byteStores, List.mem_cons, mem_byteStores es s, Event.pixel.injEq]
      constructor
      · rintro (h | h | h | h | ⟨xx1, y1, g1, r1, h1, h2⟩)
        · exact ⟨xx, y, g, r, Or.inl ⟨rfl, rfl, rfl, rfl⟩, Or.inl h⟩
        · exact ⟨xx, y, g, r, Or.inl ⟨rfl, rfl, rfl, rfl⟩, Or.inr (Or.inl h)⟩
        · exact ⟨xx, y, g, r, Or.inl ⟨rfl, rfl, rfl, rfl⟩, Or.inr (Or.inr (Or.inl h))⟩
        · exact ⟨xx, y, g, r, Or.inl ⟨rfl, rfl, rfl, rfl⟩, Or.inr (Or.inr (Or.inr h))⟩
        · exact ⟨xx1, y1, g1, r1, Or.inr h1, h2⟩
      · rintro ⟨xx1, y1, g1, r1, (⟨rfl, rfl, rfl, rfl⟩ | h1), h2⟩
        · rcases h2 with h | h | h | h
          · exact Or.inl h
          · exact Or.inr (Or.inl h)
          · exact Or.inr (Or.inr (Or.inl h))
          · exact Or.inr (Or.inr (Or.inr (Or.inl h)))
        · exact Or.inr (Or.inr (Or.inr (Or.inr ⟨xx1, y1, g1, r1, h1, h2⟩)))
    | _ => simp [byteStores, mem_byteStores es s]

theorem pixelOffset_of_cell (xx y : Int) (hx0 : 0 ≤ xx) (hx1 : xx < 256) (hy0 : 0 ≤ y)
    (hy1 : y < 128) : ((pixelOffset xx y : Nat) : Int) = 4 * (256 * y + xx) := by
  unfold pixelOffset wrapU32 WIDTH
  omega

theorem pixelOffset_mod (xx y : Int) : pixelOffset xx y % 4 = 0 := by
  unfold pixelOffset wrapU32 WIDTH
  omega

theorem zero_getD (i : Nat) : Pixels.zero.getD i 0 = 0 := by
  unfold Pixels.zero
  rw [Array.getD_eq_get?]
  by_cases h : i < NUM_BYTES
  · rw [Array.getElem?_eq_getElem (by simpa using h)]
    simp
  · rw [Array.getElem?_len_le _ (by simpa using h)]
    rfl

/-- When all stored cells lie in the buffer, the stores of a log succeed. -/
theorem storeAll_byteStores_isSome (log : List Event) (px : Pixels)
    (hsize : px.size = NUM_BYTES)
    (hcells : ∀ xx y g r, Event.pixel xx y g r ∈ log →
      0 ≤ xx ∧ xx < 256 ∧ 0 ≤ y ∧ y < 128) :
    ∃ out, storeAll (byteStores log) px = some out := by
  apply storeAll_isSome
  intro s hs
  obtain ⟨xx, y, g, r, hmem, hs⟩ := (mem_byteStores log s).1 hs
  obtain ⟨h1, h2, h3, h4⟩ := hcells xx y g r hmem
  have ho := pixelOffset_of_cell _ _ h1 h2 h3 h4
  rw [hsize]
  unfold NUM_BYTES
  rcases hs with rfl | rfl | rfl | rfl <;> simp only <;> omega

/-- A byte of a cell that no pixel store of the log names is never stored to. -/
theorem lastStore_untouched (log : List Event)
    (hcells : ∀ xx y g r, Event.pixel xx y g r ∈ log →
      0 ≤ xx ∧ xx < 256 ∧ 0 ≤ y ∧ y < 128)
    (x y k : Nat) (hx : x < 256) (hk : k < 4)
    (hno : ∀ g r, Event.pixel (x : Int) (y : Int) g r ∉ log) :
    lastStore (byteStores log) (4 * (256 * y + x) + k) = none := by
  apply lastStore_none
  intro s hs heq
  obtain ⟨xx, y1, g, r, hmem, hs⟩ := (mem_byteStores log s).1 hs
  obtain ⟨h1, h2, h3, h4⟩ := hcells xx y1 g r hmem
  have ho := pixelOffset_of_cell _ _ h1 h2 h3 h4
  have hc : xx = (x : Int) ∧ y1 = (y : Int) := by
    rcases hs with rfl | rfl | rfl | rfl <;> simp only at heq <;> omega
  rw [hc.1, hc.2] at hmem
  exact hno g r hmem

/-- The bytes of a cell that the log stores to with one colour only. -/
theorem lastStore_cell (log : List Event)
    (hcells : ∀ xx y g r, Event.pixel xx y g r ∈ log →
      0 ≤ xx ∧ xx < 256 ∧ 0 ≤ y ∧ y < 128)
    (x y : Nat) (hx : x < 256) (hy : y < 128) (g r : Nat)
    (hmem : Event.pixel (x : Int) (y : Int) g r ∈ log)
    (huniq : ∀ g1 r1, Event.pixel (x : Int) (y : Int) g1 r1 ∈ log → g1 = g ∧ r1 = r) :
    lastStore (byteStores log) (4 * (256 * y + x) + 0) = some 0 ∧
    lastStore (byteStores log) (4 * (256 * y + x) + 1) = some g ∧
    lastStore (byteStores log) (4 * (256 * y + x) + 2) = some r ∧
    lastStore (byteStores log) (4 * (256 * y + x) + 3) = some SDL_ALPHA_OPAQUE := by
  have ho : pixelOffset (x : Int) (y : Int) = 4 * (256 * y + x) := by
    have := pixelOffset_of_cell (x : Int) (y : Int) (by omega) (by omega)
      (by omega) (by omega)
    omega
  have hall : ∀ (k b : Nat), k < 4 →
      (k = 0 → b = 0) → (k = 1 → b = g) → (k = 2 → b = r) → (k = 3 → b = SDL_ALPHA_OPAQUE) →
      lastStore (byteStores log) (4 * (256 * y + x) + k) = some b := by
    intro k b hk hb0 hb1 hb2 hb3
    apply lastStore_const
    · refine ⟨(4 * (256 * y + x) + k, b), ?_, rfl⟩
      rw [mem_byteStores]
      refine ⟨x, y, g, r, hmem, ?_⟩
      rw [ho]
      have : k = 0 ∨ k = 1 ∨ k = 2 ∨ k = 3 := by omega
      rcases this with rfl | rfl | rfl | rfl
      · left; rw [hb0 rfl]
      · right; left; rw [hb1 rfl]
      · right; right; left; rw [hb2 rfl]
      · right; right; right; rw [hb3 rfl]
    · intro s hs heq
      obtain ⟨xx, y1, g1, r1, hmem1, hs⟩ := (mem_byteStores log s).1 hs
      obtain ⟨h1, h2, h3, h4⟩ := hcells xx y1 g1 r1 hmem1
      have ho1 := pixelOffset_of_cell _ _ h1 h2 h3 h4
      have hc : xx = (x : Int) ∧ y1 = (y : Int) := by
        rcases hs with rfl | rfl | rfl | rfl <;> simp only at heq <;> omega
      have hk1 : s.1 = pixelOffset xx y1 + k := by
        rw [heq, hc.1, hc.2, ho]
      rw [hc.1, hc.2] at hmem1
      obtain ⟨hg, hr⟩ := huniq g1 r1 hmem1
      rcases hs with rfl | rfl | rfl | rfl <;> simp only at hk1 ⊢
      · exact (hb0 (by omega)).symm
      · rw [hg]; exact (hb1 (by omega)).symm
      · rw [hr]; exact (hb2 (by omega)).symm
      · exact (hb3 (by omega)).symm
  exact ⟨hall 0 0 (by omega) (fun _ => rfl) (by omega) (by omega) (by omega),
    hall 1 g (by omega) (by omega) (fun _ => rfl) (by omega) (by omega),
    hall 2 r (by omega) (by omega) (by omega) (fun _ => rfl) (by omega),
    hall 3 SDL_ALPHA_OPAQUE (by omega) (by omega) (by omega) (by omega) (fun _ => rfl)⟩

/-! ## Sign changes and convexity -/

/-! ### Sign changes of a list of booleans -/

theorem changes_cons_cons (a b : Bool) (l : List Bool) :
    changes (a :: b :: l) = (if a = b then 0 else 1) + changes (b :: l) := rfl

theorem altList_sublist : ∀ (l : List Bool) (b : Bool),
    (altList b (changes (b :: l) + 1)).Sublist (b :: l)
  | [], b => by
    simp [changes, altList]
  | c :: l, b => by
    rw [changes_cons_cons]
    by_cases h : b = c
    · subst h
      simp only [if_true, zero_add]
      have ih := altList_sublist l b
      cases hk : changes (b :: l) + 1 with
      | zero => omega
      | succ n =>
        rw [hk] at ih
        simp only [altList] at ih ⊢
        exact List.Sublist.cons₂ b ((List.cons_sublist_cons.1 ih).cons b)
    · have hc : c = !b := by cases b <;> cases c <;> simp at h ⊢
      subst hc
      simp only [h, if_false]
      have e : 1 + changes ((!b) :: l) + 1 = (changes ((!b) :: l) + 1) + 1 := by omega
      rw [e, altList]
      exact List.Sublist.cons₂ b (altList_sublist l (!b))

theorem altList_sublist_of_le : ∀ (m n : Nat) (b : Bool), m ≤ n →
    (altList b m).Sublist (altList b n)
  | 0, _, _, _ => List.nil_sublist _
  | m + 1, 0, _, h => by omega
  | m + 1, n + 1, b, h => by
    simp only [altList]
    exact List.Sublist.cons₂ b (altList_sublist_of_le m n (!b) (by omega))

/-- A list of booleans without an alternating sublist of length four changes sign at
most twice. -/
theorem changes_le_two (ls : List Bool)
    (h1 : ¬ [true, false, true, false].Sublist ls)
    (h2 : ¬ [false, true, false, true].Sublist ls) : changes ls ≤ 2 := by
  by_contra hc
  match ls, hc with
  | [], hc => simp [changes] at hc
  | b :: l, hc =>
    have hs := (altList_sublist_of_le 4 (changes (b :: l) + 1) b (by omega)).trans
      (altList_sublist l b)
    cases b
    · exact h2 hs
    · exact h1 hs

theorem changes_closed_parity : ∀ (l : List Bool) (b c : Bool),
    changes (b :: l ++ [c]) % 2 = if b = c then 0 else 1
  | [], b, c => by
    simp only [List.cons_append, List.nil_append, changes]
    split_ifs <;> rfl
  | a :: l, b, c => by
    have ih := changes_closed_parity l a c
    simp only [List.cons_append] at ih ⊢
    rw [changes_cons_cons]
    cases a <;> cases b <;> cases c <;> simp at ih ⊢ <;> omega

theorem changes_append_singleton_le : ∀ (l : List Bool) (c : Bool),
    changes (l ++ [c]) ≤ changes l + 1
  | [], c => by simp [changes]
  | [a], c => by
    simp only [List.cons_append, List.nil_append, changes]
    split_ifs <;> omega
  | a :: b :: l, c => by
    have ih := changes_append_singleton_le (b :: l) c
    simp only [List.cons_append] at ih ⊢
    rw [changes_cons_cons, changes_cons_cons]
    omega

theorem changes_le_append : ∀ (l : List Bool) (c : Bool),
    changes l ≤ changes (l ++ [c])
  | [], c => by simp [changes]
  | [a], c => by simp [changes]
  | a :: b :: l, c => by
    have ih := changes_le_append (b :: l) c
    simp only [List.cons_append] at ih ⊢
    rw [changes_cons_cons, changes_cons_cons]
    omega

theorem eq_head_of_changes_eq_zero : ∀ (l : List Bool) (b : Bool),
    changes (b :: l) = 0 → ∀ x ∈ l, x = b
  | [], _, _, x, hx => by simp at hx
  | a :: l, b, h, x, hx => by
    rw [changes_cons_cons] at h
    have hab : b = a := by
      by_contra hne
      simp [hne] at h
    subst hab
    have h0 : changes (b :: l) = 0 := by omega
    rcases List.mem_cons.1 hx with rfl | hx
    · rfl
    · exact eq_head_of_changes_eq_zero l b h0 x hx

theorem changes_pos_of_mem {ls : List Bool} (ht : true ∈ ls) (hf : false ∈ ls) :
    0 < changes ls := by
  by_contra hc
  match ls, ht, hf, hc with
  | [], ht, _, _ => simp at ht
  | b :: l, ht, hf, hc =>
    have h0 : changes (b :: l) = 0 := by omega
    have hall := eq_head_of_changes_eq_zero l b h0
    have e1 : true = b := by
      rcases List.mem_cons.1 ht with h | h
      · exact h
      · exact hall _ h
    have e2 : false = b := by
      rcases List.mem_cons.1 hf with h | h
      · exact h
      · exact hall _ h
    rw [← e1] at e2
    cases e2

/-- Around the closed boundary the labels change exactly twice. -/
theorem changes_closed_eq_two (b : Bool) (l : List Bool)
    (h1 : ¬ [true, false, true, false].Sublist (b :: l))
    (h2 : ¬ [false, true, false, true].Sublist (b :: l))
    (ht : true ∈ b :: l) (hf : false ∈ b :: l) :
    changes (b :: l ++ [b]) = 2 := by
  have hle := changes_le_two (b :: l) h1 h2
  have hpos := changes_pos_of_mem ht hf
  have hpar := changes_closed_parity l b b
  have happ := changes_append_singleton_le (b :: l) b
  have hmono := changes_le_append (b :: l) b
  simp only [if_true] at hpar
  simp only [List.cons_append] at happ hmono hpar ⊢
  omega

/-! ### Pairs and triples in list order -/

theorem mem_pairsOf_of_sublist : ∀ (l : List FPoint) (p q : FPoint),
    [p, q].Sublist l → (p, q) ∈ pairsOf l
  | [], _, _, h => by cases h
  | a :: l, p, q, h => by
    simp only [pairsOf, List.mem_append, List.mem_map]
    cases h with
    | cons _ h1 => exact Or.inr (mem_pairsOf_of_sublist l p q h1)
    | cons₂ _ h1 => exact Or.inl ⟨q, List.singleton_sublist.1 h1, rfl⟩

theorem mem_triplesOf_of_sublist : ∀ (l : List FPoint) (p q r : FPoint),
    [p, q, r].Sublist l → (p, q, r) ∈ triplesOf l
  | [], _, _, _, h => by cases h
  | a :: l, p, q, r, h => by
    simp only [triplesOf, List.mem_append, List.mem_map]
    cases h with
    | cons _ h1 => exact Or.inr (mem_triplesOf_of_sublist l p q r h1)
    | cons₂ _ h1 => exact Or.inl ⟨(q, r), mem_pairsOf_of_sublist l q r h1, rfl⟩

/-! ### Convexity and horizontal lines -/

theorem mem_of_mem_pairsOf : ∀ (l : List FPoint) (p q : FPoint),
    (p, q) ∈ pairsOf l → p ∈ l ∧ q ∈ l
  | [], _, _, h => by simp [pairsOf] at h
  | a :: l, p, q, h => by
    simp only [pairsOf, List.mem_append, List.mem_map, Prod.mk.injEq] at h
    rcases h with ⟨b, hb, rfl, rfl⟩ | h
    · exact ⟨List.mem_cons_self _ _, List.mem_cons_of_mem _ hb⟩
    · obtain ⟨h1, h2⟩ := mem_of_mem_pairsOf l p q h
      exact ⟨List.mem_cons_of_mem _ h1, List.mem_cons_of_mem _ h2⟩

theorem mem_of_mem_triplesOf : ∀ (l : List FPoint) (p q r : FPoint),
    (p, q, r) ∈ triplesOf l → p ∈ l ∧ q ∈ l ∧ r ∈ l
  | [], _, _, _, h => by simp [triplesOf] at h
  | a :: l, p, q, r, h => by
    simp only [triplesOf] at h
    rcases List.mem_append.1 h with h | h
    · obtain ⟨⟨b, c⟩, hbc, heq⟩ := List.mem_map.1 h
      simp only [Prod.mk.injEq] at heq
      obtain ⟨rfl, rfl, rfl⟩ := heq
      obtain ⟨h1, h2⟩ := mem_of_mem_pairsOf l b c hbc
      exact ⟨List.mem_cons_self _ _, List.mem_cons_of_mem _ h1, List.mem_cons_of_mem _ h2⟩
    · obtain ⟨h1, h2, h3⟩ := mem_of_mem_triplesOf l p q r h
      exact ⟨List.mem_cons_of_mem _ h1, List.mem_cons_of_mem _ h2, List.mem_cons_of_mem _ h3⟩

/-- Four points of the plane and a height `α * y + β`. -/
theorem orient_height_identity (a b c d : FPoint) (α β : ℚ) :
    (α * a.y + β) * orient b c d - (α * b.y + β) * orient a c d
      + (α * c.y + β) * orient a b d - (α * d.y + β) * orient a b c = 0 := by
  unfold orient
  ring

/-- Three points on the line through two different points are collinear. -/
theorem orient_eq_zero_of_onLine (e1 e2 p q r : FPoint) (hne : ¬ (e1.x = e2.x ∧ e1.y = e2.y))
    (hp : orient e1 e2 p = 0) (hq : orient e1 e2 q = 0) (hr : orient e1 e2 r = 0) :
    orient p q r = 0 := by
  unfold orient at hp hq hr
  have hx : (e2.x - e1.x) * orient p q r = 0 := by
    unfold orient
    linear_combination (q.x - p.x) * (hr - hp) - (r.x - p.x) * (hq - hp)
  have hy : (e2.y - e1.y) * orient p q r = 0 := by
    unfold orient
    linear_combination (q.y - p.y) * (hr - hp) - (r.y - p.y) * (hq - hp)
  rcases mul_eq_zero.1 hx with h1 | h1
  · rcases mul_eq_zero.1 hy with h2 | h2
    · exact absurd ⟨by linarith, by linarith⟩ hne
    · exact h2
  · exact h1

theorem orient_self_left (e1 e2 : FPoint) : orient e1 e2 e1 = 0 := by
  unfold orient; ring

theorem orient_self_right (e1 e2 : FPoint) : orient e1 e2 e2 = 0 := by
  unfold orient; ring

/-- A point collinear with two different points of a line lies on that line. -/
theorem onLine_of_collinear (e1 e2 x y w : FPoint) (hne : ¬ (e1.x = e2.x ∧ e1.y = e2.y))
    (hxy : ¬ (x.x = y.x ∧ x.y = y.y)) (hx : orient e1 e2 x = 0) (hy : orient e1 e2 y = 0)
    (hw : orient x y w = 0) : orient e1 e2 w = 0 := by
  have h1 : orient x y e1 = 0 :=
    orient_eq_zero_of_onLine e1 e2 x y e1 hne hx hy (orient_self_left e1 e2)
  have h2 : orient x y e2 = 0 :=
    orient_eq_zero_of_onLine e1 e2 x y e2 hne hx hy (orient_self_right e1 e2)
  exact orient_eq_zero_of_onLine x y e1 e2 w hxy h1 h2 hw

theorem zero_of_alt_sum (x1 x2 x3 x4 : ℚ) (h1 : x1 ≤ 0) (h2 : 0 ≤ x2) (h3 : x3 ≤ 0)
    (h4 : 0 ≤ x4) (hsum : x1 - x2 + x3 - x4 = 0) : x1 = 0 ∧ x2 = 0 ∧ x3 = 0 ∧ x4 = 0 :=
  ⟨by linarith, by linarith, by linarith, by linarith⟩

/-- The alternating identity for four points whose terms all have one sign. -/
theorem alt4 (p1 p2 p3 p4 : FPoint) (α β σ : ℚ)
    (h1 : (α * p1.y + β) * (σ * orient p2 p3 p4) ≤ 0)
    (h2 : 0 ≤ (α * p2.y + β) * (σ * orient p1 p3 p4))
    (h3 : (α * p3.y + β) * (σ * orient p1 p2 p4) ≤ 0)
    (h4 : 0 ≤ (α * p4.y + β) * (σ * orient p1 p2 p3)) :
    (α * p1.y + β) * (σ * orient p2 p3 p4) = 0 ∧
    (α * p2.y + β) * (σ * orient p1 p3 p4) = 0 ∧
    (α * p3.y + β) * (σ * orient p1 p2 p4) = 0 ∧
    (α * p4.y + β) * (σ * orient p1 p2 p3) = 0 := by
  apply zero_of_alt_sum _ _ _ _ h1 h2 h3 h4
  have := orient_height_identity p1 p2 p3 p4 α β
  linear_combination σ * this

theorem orient_zero_of_mul {H σ o : ℚ} (hσ : σ = 1 ∨ σ = -1) (hH : H ≠ 0)
    (h : H * (σ * o) = 0) : o = 0 := by
  rcases mul_eq_zero.1 h with h1 | h1
  · exact absurd h1 hH
  · rcases mul_eq_zero.1 h1 with h2 | h2
    · rcases hσ with h3 | h3 <;> rw [h3] at h2 <;> norm_num at h2
    · exact h2

/-- A member of a list either belongs to a given sublist or can be inserted into it. -/
theorem sublist_insert (w : FPoint) : ∀ {l1 l : List FPoint}, l1.Sublist l → w ∈ l →
    w ∈ l1 ∨ ∃ u v, l1 = u ++ v ∧ (u ++ w :: v).Sublist l := by
  intro l1 l h
  induction h with
  | slnil => intro hw; simp at hw
  | @cons l1 l x h1 ih =>
    intro hw
    rcases List.mem_cons.1 hw with rfl | hw
    · exact Or.inr ⟨[], l1, rfl, List.Sublist.cons₂ _ h1⟩
    · rcases ih hw with h2 | ⟨u, v, h2, h3⟩
      · exact Or.inl h2
      · exact Or.inr ⟨u, v, h2, List.Sublist.cons _ h3⟩
  | @cons₂ l1 l x h1 ih =>
    intro hw
    rcases List.mem_cons.1 hw with rfl | hw
    · exact Or.inl (List.mem_cons_self _ _)
    · rcases ih hw with h2 | ⟨u, v, h2, h3⟩
      · exact Or.inl (List.mem_cons_of_mem _ h2)
      · refine Or.inr ⟨x :: u, v, by rw [h2]; rfl, ?_⟩
        exact List.Sublist.cons₂ _ h3

/-- Four vertices in list order that alternate between the two sides of a horizontal line
cannot occur in a polygon whose triples all turn one way (or are collinear), whose
positions are pairwise different and whose vertices are not all collinear. -/
theorem alternation_absurd (poly : List FPoint) (a b c d : FPoint)
    (hsub : [a, b, c, d].Sublist poly)
    (hdist : ∀ p q, [p, q].Sublist poly → ¬ (p.x = q.x ∧ p.y = q.y))
    (σ : ℚ) (hσ : σ = 1 ∨ σ = -1)
    (hsign : ∀ p q r, [p, q, r].Sublist poly → 0 ≤ σ * orient p q r)
    (α β : ℚ) (hHa : α * a.y + β ≤ 0) (hHb : 0 ≤ α * b.y + β)
    (hHc : α * c.y + β ≤ 0) (hHd : 0 ≤ α * d.y + β)
    (hstrict : (α * a.y + β < 0 ∧ α * c.y + β < 0) ∨ (0 < α * b.y + β ∧ 0 < α * d.y + β))
    (hw : ∃ p q r, p ∈ poly ∧ q ∈ poly ∧ r ∈ poly ∧ orient p q r ≠ 0) : False := by
  have A := alt4 a b c d α β σ
    (mul_nonpos_of_nonpos_of_nonneg hHa (hsign b c d (List.Sublist.trans (by simp) hsub)))
    (mul_nonneg hHb (hsign a c d (List.Sublist.trans (by simp) hsub)))
    (mul_nonpos_of_nonpos_of_nonneg hHc (hsign a b d (List.Sublist.trans (by simp) hsub)))
    (mul_nonneg hHd (hsign a b c (List.Sublist.trans (by simp) hsub)))
  have dac := hdist a c (List.Sublist.trans (by simp) hsub)
  have dbc := hdist b c (List.Sublist.trans (by simp) hsub)
  have dbd := hdist b d (List.Sublist.trans (by simp) hsub)
  have dcd := hdist c d (List.Sublist.trans (by simp) hsub)
  -- the four vertices lie on one line
  have hline : ∃ e1 e2 : FPoint, ¬ (e1.x = e2.x ∧ e1.y = e2.y) ∧ orient e1 e2 a = 0 ∧
      orient e1 e2 b = 0 ∧ orient e1 e2 c = 0 ∧ orient e1 e2 d = 0 := by
    rcases hstrict with ⟨sa, sc⟩ | ⟨sb, sd⟩
    · have h1 : orient b c d = 0 := orient_zero_of_mul hσ (ne_of_lt sa) A.1
      have h2 : orient a b d = 0 := orient_zero_of_mul hσ (ne_of_lt sc) A.2.2.1
      refine ⟨b, d, dbd, ?_, orient_self_left b d, ?_, orient_self_right b d⟩
      · have : orient b d a = orient a b d := by unfold orient; ring
        rw [this]; exact h2
      · have : orient b d c = - orient b c d := by unfold orient; ring
        rw [this, h1, neg_zero]
    · have h1 : orient a c d = 0 := orient_zero_of_mul hσ (ne_of_gt sb) A.2.1
      have h2 : orient a b c = 0 := orient_zero_of_mul hσ (ne_of_gt sd) A.2.2.2
      refine ⟨a, c, dac, orient_self_left a c, ?_, orient_self_right a c, h1⟩
      have : orient a c b = - orient a b c := by unfold orient; ring
      rw [this, h2, neg_zero]
  obtain ⟨e1, e2, hne, la, lb, lc, ld⟩ := hline
  have hbcd : orient b c d = 0 := orient_eq_zero_of_onLine e1 e2 b c d hne lb lc ld
  have hacd : orient a c d = 0 := orient_eq_zero_of_onLine e1 e2 a c d hne la lc ld
  have habc : orient a b c = 0 := orient_eq_zero_of_onLine e1 e2 a b c hne la lb lc
  -- a vertex in front of `b`
  have R1 : ∀ w, [w, b, c, d].Sublist poly → orient e1 e2 w = 0 := by
    intro w hR
    have B := alt4 w b c d α β σ (by rw [hbcd]; simp)
      (mul_nonneg hHb (hsign w c d (List.Sublist.trans (by simp) hR)))
      (mul_nonpos_of_nonpos_of_nonneg hHc (hsign w b d (List.Sublist.trans (by simp) hR)))
      (mul_nonneg hHd (hsign w b c (List.Sublist.trans (by simp) hR)))
    rcases hstrict with ⟨sa, sc⟩ | ⟨sb, sd⟩
    · have h1 : orient w b d = 0 := orient_zero_of_mul hσ (ne_of_lt sc) B.2.2.1
      apply onLine_of_collinear e1 e2 b d w hne dbd lb ld
      have : orient b d w = orient w b d := by unfold orient; ring
      rw [this]; exact h1
    · have h1 : orient w c d = 0 := orient_zero_of_mul hσ (ne_of_gt sb) B.2.1
      apply onLine_of_collinear e1 e2 c d w hne dcd lc ld
      have : orient c d w = orient w c d := by unfold orient; ring
      rw [this]; exact h1
  -- a vertex between `a` and `c`
  have R2 : ∀ w, [a, w, c, d].Sublist poly → orient e1 e2 w = 0 := by
    intro w hR
    have B := alt4 a w c d α β σ
      (mul_nonpos_of_nonpos_of_nonneg hHa (hsign w c d (List.Sublist.trans (by simp) hR)))
      (by rw [hacd]; simp)
      (mul_nonpos_of_nonpos_of_nonneg hHc (hsign a w d (List.Sublist.trans (by simp) hR)))
      (mul_nonneg hHd (hsign a w c (List.Sublist.trans (by simp) hR)))
    rcases hstrict with ⟨sa, sc⟩ | ⟨sb, sd⟩
    · have h1 : orient w c d = 0 := orient_zero_of_mul hσ (ne_of_lt sa) B.1
      apply onLine_of_collinear e1 e2 c d w hne dcd lc ld
      have : orient c d w = orient w c d := by unfold orient; ring
      rw [this]; exact h1
    · have h1 : orient a w c = 0 := orient_zero_of_mul hσ (ne_of_gt sd) B.2.2.2
      apply onLine_of_collinear e1 e2 a c w hne dac la lc
      have : orient a c w = - orient a w c := by unfold orient; ring
      rw [this, h1, neg_zero]
  -- a vertex behind `c`
  have R4 : ∀ w, [a, b, c, w].Sublist poly → orient e1 e2 w = 0 := by
    intro w hR
    have B := alt4 a b c w α β σ
      (mul_nonpos_of_nonpos_of_nonneg hHa (hsign b c w (List.Sublist.trans (by simp) hR)))
      (mul_nonneg hHb (hsign a c w (List.Sublist.trans (by simp) hR)))
      (mul_nonpos_of_nonpos_of_nonneg hHc (hsign a b w (List.Sublist.trans (by simp) hR)))
      (by rw [habc]; simp)
    rcases hstrict with ⟨sa, sc⟩ | ⟨sb, sd⟩
    · have h1 : orient b c w = 0 := orient_zero_of_mul hσ (ne_of_lt sa) B.1
      exact onLine_of_collinear e1 e2 b c w hne dbc lb lc h1
    · have h1 : orient a c w = 0 := orient_zero_of_mul hσ (ne_of_gt sb) B.2.1
      exact onLine_of_collinear e1 e2 a c w hne dac la lc h1
  -- every vertex lies on the line
  have hall : ∀ w ∈ poly, orient e1 e2 w = 0 := by
    intro w hwm
    rcases sublist_insert w hsub hwm with hin | ⟨u, v, huv, hins⟩
    · simp only [List.mem_cons, List.mem_singleton, List.not_mem_nil, or_false] at hin
      rcases hin with rfl | rfl | rfl | rfl
      · exact la
      · exact lb
      · exact lc
      · exact ld
    · rcases u with _ | ⟨u1, _ | ⟨u2, _ | ⟨u3, _ | ⟨u4, _ | ⟨u5, u⟩⟩⟩⟩⟩
      · simp only [List.nil_append] at huv hins
        subst huv
        exact R1 w (List.Sublist.trans (by simp) hins)
      · simp only [List.cons_append, List.nil_append, List.cons.injEq] at huv hins
        obtain ⟨rfl, rfl⟩ := huv
        exact R1 w (List.Sublist.trans (by simp) hins)
      · simp only [List.cons_append, List.nil_append, List.cons.injEq] at huv hins
        obtain ⟨rfl, rfl, rfl⟩ := huv
        exact R2 w (List.Sublist.trans (by simp) hins)
      · simp only [List.cons_append, List.nil_append, List.cons.injEq] at huv hins
        obtain ⟨rfl, rfl, rfl, rfl⟩ := huv
        exact R4 w (List.Sublist.trans (by simp) hins)
      · simp only [List.cons_append, List.nil_append, List.cons.injEq] at huv hins
        obtain ⟨rfl, rfl, rfl, rfl, rfl⟩ := huv
        exact R4 w (List.Sublist.trans (by simp) hins)
      · simp at huv
  obtain ⟨p, q, r, hp, hq, hr, hpqr⟩ := hw
  exact hpqr (orient_eq_zero_of_onLine e1 e2 p q r hne (hall p hp) (hall q hq) (hall r hr))

/-- The vertices of a convex polygon below a horizontal line are consecutive: no four
vertices in list order alternate between the two sides of the line. -/
theorem no_alternation (poly : List FPoint) (hconv : ConvexPolygon poly) (t : ℚ) (s : Bool) :
    ¬ [s, !s, s, !s].Sublist (poly.map fun p => decide (p.y < t)) := by
  intro h
  obtain ⟨hnd, hor, hw⟩ := hconv
  obtain ⟨l4, hl4, hmap⟩ := List.sublist_map_iff.1 h
  have hdist : ∀ p q, [p, q].Sublist poly → ¬ (p.x = q.x ∧ p.y = q.y) := by
    intro p q hpq heq
    have h1 := (hpq.map fun p : FPoint => (p.x, p.y))
    have h2 := List.Nodup.sublist h1 hnd
    simp only [List.map_cons, List.map_nil, List.nodup_cons, List.mem_singleton, Prod.mk.injEq,
      List.not_mem_nil, not_false_eq_true, List.nodup_nil, and_true] at h2
    exact h2 heq
  have hsign : ∃ σ : ℚ, (σ = 1 ∨ σ = -1) ∧
      ∀ p q r, [p, q, r].Sublist poly → 0 ≤ σ * orient p q r := by
    rcases hor with hpos | hneg
    · refine ⟨1, Or.inl rfl, fun p q r hs => ?_⟩
      have := hpos _ (mem_triplesOf_of_sublist _ _ _ _ hs)
      simpa using this
    · refine ⟨-1, Or.inr rfl, fun p q r hs => ?_⟩
      have := hneg _ (mem_triplesOf_of_sublist _ _ _ _ hs)
      simp only at this
      linarith
  obtain ⟨σ, hσ, hsign⟩ := hsign
  have hw1 : ∃ p q r, p ∈ poly ∧ q ∈ poly ∧ r ∈ poly ∧ orient p q r ≠ 0 := by
    obtain ⟨⟨p, q, r⟩, ht, hne⟩ := hw
    obtain ⟨h1, h2, h3⟩ := mem_of_mem_triplesOf _ _ _ _ ht
    exact ⟨p, q, r, h1, h2, h3, hne⟩
  rcases l4 with _ | ⟨a, _ | ⟨b, _ | ⟨c, _ | ⟨d, _ | ⟨e, l⟩⟩⟩⟩⟩
  · simp at hmap
  · simp at hmap
  · simp at hmap
  · simp at hmap
  rotate_left
  · simp at hmap
  · simp only [List.map_cons, List.map_nil, List.cons.injEq, and_true] at hmap
    obtain ⟨ha, hb, hc, hd⟩ := hmap
    cases s
    · simp only [Bool.not_false, Bool.false_eq, Bool.true_eq, decide_eq_false_iff_not,
        decide_eq_true_eq, not_lt] at ha hb hc hd
      exact alternation_absurd poly a b c d hl4 hdist σ hσ hsign (-1) t
        (by linarith) (by linarith) (by linarith) (by linarith)
        (Or.inr ⟨by linarith, by linarith⟩) hw1
    · simp only [Bool.not_true, Bool.false_eq, Bool.true_eq, decide_eq_false_iff_not,
        decide_eq_true_eq, not_lt] at ha hb hc hd
      exact alternation_absurd poly a b c d hl4 hdist σ hσ hsign 1 (-t)
        (by linarith) (by linarith) (by linarith) (by linarith)
        (Or.inl ⟨by linarith, by linarith⟩) hw1

/-! ## Counting -/

/-! ### Counting the visits of a row -/

theorem countP_colLoop_row (r : Int) (y : Int) (ddu ddv : ℚ) (k : Nat) (xx : Int) (uu vv : ℚ) :
    List.countP (isRowAt r) (colLoop y ddu ddv k xx uu vv) = 0 ∧
    List.countP (isFillAt r) (colLoop y ddu ddv k xx uu vv) = 0 := by
  rw [colLoop_eq]
  constructor <;>
  · rw [List.countP_eq_zero]
    intro e he
    obtain ⟨i, _, rfl⟩ := List.mem_map.1 he
    simp [isRowAt, isFillAt]

theorem ite_add_disjoint (P0 P1 P : Prop) [Decidable P0] [Decidable P1] [Decidable P]
    (hd : ¬ (P0 ∧ P1)) (hP : P ↔ (P0 ∨ P1)) :
    (if P0 then 1 else 0) + (if P1 then 1 else 0) = (if P then 1 else 0 : Nat) := by
  by_cases h0 : P0 <;> by_cases h1 : P1 <;> simp [h0, h1, hP]
  exact hd ⟨h0, h1⟩

theorem ite_add_flag (P0 P1 P F F1 : Prop) [Decidable P0] [Decidable P1] [Decidable P]
    [Decidable F] [Decidable F1]
    (hd : ¬ (P0 ∧ P1)) (hP : P ↔ (P0 ∨ P1)) (hF1 : F1 ↔ (F ∨ P0)) :
    (if P0 ∧ F then 1 else 0) + (if P1 ∧ F1 then 1 else 0) = (if P ∧ F then 1 else 0 : Nat) := by
  by_cases h0 : P0 <;> by_cases h1 : P1 <;> by_cases hF : F <;> simp [h0, h1, hF, hP, hF1]
  all_goals exact hd ⟨h0, h1⟩

theorem ite_add_count (X F F1 : Prop) [Decidable X] [Decidable F] [Decidable F1] (c : Nat)
    (hF1 : F1 ↔ (F ∨ X)) :
    (if X ∧ F then 1 else 0) + (if F1 then c else c - 1) =
      (if F then c + (if X then 1 else 0) else c + (if X then 1 else 0) - 1) := by
  by_cases hX : X <;> by_cases hF : F <;> simp [hX, hF, hF1]
  omega

theorem rowBody_of_set {ymin y : Int} {x u v : ℚ} {sp : Spans}
    (h : (sp (y - ymin)).1 = true) :
    rowBody ymin y x u v sp = (sp, Event.row y x u v ::
      Event.spanRead (y - ymin) :: fillRow (sp (y - ymin)).2 x y u v) := by
  simp [rowBody, h]

theorem countP_fillRow (r : Int) (span : FPoint) (x : ℚ) (y : Int) (u v : ℚ) :
    List.countP (isRowAt r) (fillRow span x y u v) = 0 ∧
    List.countP (isFillAt r) (fillRow span x y u v) = (if y = r then 1 else 0) := by
  have hc := countP_colLoop_row r y
  simp only [fillRow, List.countP_cons, hc, isRowAt, isFillAt]
  constructor
  · simp
  · by_cases hy : y = r
    · simp [hy]
    · simp [hy]

theorem countP_rowBody (r ymin y : Int) (x u v : ℚ) (sp : Spans) :
    List.countP (isRowAt r) (rowBody ymin y x u v sp).2 = (if y = r then 1 else 0) ∧
    List.countP (isFillAt r) (rowBody ymin y x u v sp).2 =
      (if y = r ∧ (sp (r - ymin)).1 = true then 1 else 0) ∧
    (((rowBody ymin y x u v sp).1 (r - ymin)).1 = true ↔
      ((sp (r - ymin)).1 = true ∨ y = r)) := by
  by_cases hs : (sp (y - ymin)).1 = true
  · obtain ⟨f1, f2⟩ := countP_fillRow r (sp (y - ymin)).2 x y u v
    rw [rowBody_of_set hs]
    simp only [List.countP_cons, f1, f2, isRowAt, isFillAt]
    by_cases hy : y = r
    · subst hy
      simp [hs]
    · simp [hy]
  · have hs1 : (sp (y - ymin)).1 = false := by simpa using hs
    rw [not_pixel_rowBody_of_unset hs1]
    simp only [List.countP_cons, List.countP_nil, isRowAt, isFillAt]
    by_cases hy : y = r
    · subst hy
      simp [hs1]
    · have hne : r - ymin ≠ y - ymin := by omega
      rw [Function.update_noteq hne]
      simp [hy]

theorem countP_rowLoop (r ymin : Int) (dx du dv : ℚ) (k : Nat) : ∀ (y : Int) (x u v : ℚ)
    (sp : Spans),
    List.countP (isRowAt r) (rowLoop ymin dx du dv k y x u v sp).2 =
      (if y ≤ r ∧ r < y + k then 1 else 0) ∧
    List.countP (isFillAt r) (rowLoop ymin dx du dv k y x u v sp).2 =
      (if (y ≤ r ∧ r < y + k) ∧ (sp (r - ymin)).1 = true then 1 else 0) ∧
    (((rowLoop ymin dx du dv k y x u v sp).1 (r - ymin)).1 = true ↔
      ((sp (r - ymin)).1 = true ∨ (y ≤ r ∧ r < y + k))) := by
  induction k with
  | zero =>
    intro y x u v sp
    have h : ¬ (y ≤ r ∧ r < y + ((0 : Nat) : Int)) := by push_cast; omega
    simp only [rowLoop, List.countP_nil, h, if_false, false_and, or_false, and_self]
  | succ k ih =>
    intro y x u v sp
    obtain ⟨b1, b2, b3⟩ := countP_rowBody r ymin y x u v sp
    obtain ⟨i1, i2, i3⟩ := ih (y + 1) (x + dx) (u + du) (v + dv) (rowBody ymin y x u v sp).1
    have hd : ¬ (y = r ∧ (y + 1 ≤ r ∧ r < y + 1 + (k : Int))) := by omega
    have hP : (y ≤ r ∧ r < y + ((k + 1 : Nat) : Int)) ↔
        (y = r ∨ (y + 1 ≤ r ∧ r < y + 1 + (k : Int))) := by
      push_cast
      constructor <;> intro h <;> omega
    have e1 : (rowLoop ymin dx du dv (k + 1) y x u v sp).2 = (rowBody ymin y x u v sp).2 ++
        (rowLoop ymin dx du dv k (y + 1) (x + dx) (u + du) (v + dv)
          (rowBody ymin y x u v sp).1).2 := rfl
    have e2 : (rowLoop ymin dx du dv (k + 1) y x u v sp).1 =
        (rowLoop ymin dx du dv k (y + 1) (x + dx) (u + du) (v + dv)
          (rowBody ymin y x u v sp).1).1 := rfl
    rw [e1, e2, List.countP_append, List.countP_append, b1, b2, i1, i2]
    refine ⟨ite_add_disjoint (y = r) (y + 1 ≤ r ∧ r < y + 1 + (k : Int))
        (y ≤ r ∧ r < y + ((k + 1 : Nat) : Int)) hd hP,
      ite_add_flag (y = r) (y + 1 ≤ r ∧ r < y + 1 + (k : Int))
        (y ≤ r ∧ r < y + ((k + 1 : Nat) : Int)) ((sp (r - ymin)).1 = true)
        (((rowBody ymin y x u v sp).1 (r - ymin)).1 = true) hd hP b3, ?_⟩
    rw [i3, b3, hP]
    exact or_assoc

theorem countP_polyfillEdge (r ymin : Int) (a b : FPoint) (sp : Spans) :
    List.countP (isRowAt r) (polyfillEdge ymin a b sp).2 =
      (if crossesRow r (a, b) = true then 1 else 0) ∧
    List.countP (isFillAt r) (polyfillEdge ymin a b sp).2 =
      (if crossesRow r (a, b) = true ∧ (sp (r - ymin)).1 = true then 1 else 0) ∧
    (((polyfillEdge ymin a b sp).1 (r - ymin)).1 = true ↔
      ((sp (r - ymin)).1 = true ∨ crossesRow r (a, b) = true)) := by
  obtain ⟨h1, h2, h3⟩ := countP_rowLoop r ymin (edgeSetup a b).dx (edgeSetup a b).du
    (edgeSetup a b).dv ((edgeSetup a b).yEnd - (edgeSetup a b).yStart).toNat
    (edgeSetup a b).yStart (edgeSetup a b).x (edgeSetup a b).u (edgeSetup a b).v sp
  have hiff : ((edgeSetup a b).yStart ≤ r ∧
      r < (edgeSetup a b).yStart +
        ((((edgeSetup a b).yEnd - (edgeSetup a b).yStart).toNat : Nat) : Int)) ↔
      crossesRow r (a, b) = true := by
    simp only [crossesRow, decide_eq_true_eq]
    constructor <;> intro h <;> omega
  simp only [hiff] at h1 h2 h3
  simp only [polyfillEdge, List.countP_cons, isRowAt, isFillAt, h1, h2]
  exact ⟨by simp, by simp, h3⟩

theorem countP_edgeLoop (r ymin : Int) : ∀ (es : List (FPoint × FPoint)) (sp : Spans),
    List.countP (isRowAt r) (edgeLoop ymin es sp).2 = List.countP (crossesRow r) es ∧
    List.countP (isFillAt r) (edgeLoop ymin es sp).2 =
      (if (sp (r - ymin)).1 = true then List.countP (crossesRow r) es
        else List.countP (crossesRow r) es - 1) ∧
    (((edgeLoop ymin es sp).1 (r - ymin)).1 = true ↔
      ((sp (r - ymin)).1 = true ∨ 0 < List.countP (crossesRow r) es))
  | [], sp => by simp [edgeLoop]
  | (a, b) :: es, sp => by
    obtain ⟨b1, b2, b3⟩ := countP_polyfillEdge r ymin a b sp
    obtain ⟨i1, i2, i3⟩ := countP_edgeLoop r ymin es (polyfillEdge ymin a b sp).1
    simp only [edgeLoop, List.countP_append, List.countP_cons, b1, b2, i1, i2]
    refine ⟨by omega, ite_add_count _ _ _ _ b3, ?_⟩
    rw [i3, b3]
    by_cases hc : crossesRow r (a, b) = true
    · simp [hc]
    · simp [hc]

/-! ### The edges of the closed boundary -/

theorem polyEdges_cons (v : FPoint) (l : List FPoint) :
    polyEdges (v :: l) = List.zip (v :: l) (l ++ [v]) := by
  apply List.ext_getElem
  · simp [polyEdges]
  · intro i h1 h2
    have hi : i < l.length + 1 := by simpa [polyEdges] using h1
    simp only [polyEdges, List.getElem_map, List.getElem_range, List.getElem_zip,
      List.length_cons]
    congr 1
    · exact List.getD_eq_getElem _ _ (by simpa using hi)
    · by_cases hlast : i + 1 < l.length + 1
      · rw [Nat.mod_eq_of_lt hlast, List.getD_eq_getElem _ _ (by simpa using hlast)]
        simp only [List.getElem_cons_succ]
        rw [List.getElem_append_left]
      · have hil : i = l.length := by omega
        subst hil
        simp

theorem countP_zip_changes (L : FPoint → Bool) : ∀ (l : List FPoint) (v w : FPoint),
    List.countP (fun p => L p.1 != L p.2) (List.zip (v :: l) (l ++ [w])) =
      changes (List.map L (v :: l ++ [w]))
  | [], v, w => by
    simp only [List.nil_append, List.zip_cons_cons, List.zip_nil_left, List.countP_cons,
      List.countP_nil, List.cons_append, List.map_cons, List.map_nil, changes]
    cases L v <;> cases L w <;> simp
  | a :: l, v, w => by
    have ih := countP_zip_changes L l a w
    have e1 : List.zip (v :: a :: l) (a :: l ++ [w]) = (v, a) :: List.zip (a :: l) (l ++ [w]) :=
      rfl
    have e2 : List.map L (v :: (a :: l) ++ [w]) = L v :: List.map L (a :: l ++ [w]) := rfl
    have e3 : List.map L (a :: l ++ [w]) = L a :: List.map L (l ++ [w]) := rfl
    rw [e1, e2, List.countP_cons, ih, e3, changes_cons_cons]
    cases L v <;> cases L a <;> simp <;> omega

/-! ## The run on the square of main -/

/-- On rows that all have a recorded point the row loop leaves the span table as it is,
and its pixel stores are those of the span branch of each row. -/
theorem pixel_mem_rowLoop_of_set (ymin : Int) (dx du dv : ℚ) (xx y1 : Int) (g r : Nat) :
    ∀ (k : Nat) (y : Int) (x u v : ℚ) (sp : Spans),
    (∀ i : Nat, i < k → (sp (y + i - ymin)).1 = true) →
    (Event.pixel xx y1 g r ∈ (rowLoop ymin dx du dv k y x u v sp).2 ↔
      ∃ i : Nat, i < k ∧ Event.pixel xx y1 g r ∈
        fillRow (sp (y + i - ymin)).2 (x + i * dx) (y + i) (u + i * du) (v + i * dv)) := by
  intro k
  induction k with
  | zero =>
    intro y x u v sp _
    simp [rowLoop]
  | succ k ih =>
    intro y x u v sp h
    have h0 : (sp (y - ymin)).1 = true := by simpa using h 0 (Nat.succ_pos k)
    have hrest : ∀ i : Nat, i < k → (sp (y + 1 + i - ymin)).1 = true := by
      intro i hi
      have := h (i + 1) (Nat.succ_lt_succ hi)
      have e1 : y + ((i + 1 : Nat) : Int) - ymin = y + 1 + i - ymin := by push_cast; ring
      rw [e1] at this
      exact this
    have e1 : (rowLoop ymin dx du dv (k + 1) y x u v sp).2 = (rowBody ymin y x u v sp).2 ++
        (rowLoop ymin dx du dv k (y + 1) (x + dx) (u + du) (v + dv)
          (rowBody ymin y x u v sp).1).2 := rfl
    rw [e1, rowBody_of_set h0, List.mem_append, ih (y + 1) (x + dx) (u + du) (v + dv) sp hrest]
    simp only [List.mem_cons, reduceCtorEq, false_or]
    constructor
    · rintro (h1 | ⟨i, hi, h1⟩)
      · refine ⟨0, Nat.succ_pos k, ?_⟩
        simpa using h1
      · refine ⟨i + 1, Nat.succ_lt_succ hi, ?_⟩
        have e2 : y + ((i + 1 : Nat) : Int) = y + 1 + i := by push_cast; ring
        have e3 : x + ((i + 1 : Nat) : ℚ) * dx = x + dx + i * dx := by push_cast; ring
        have e4 : u + ((i + 1 : Nat) : ℚ) * du = u + du + i * du := by push_cast; ring
        have e5 : v + ((i + 1 : Nat) : ℚ) * dv = v + dv + i * dv := by push_cast; ring
        rw [e2, e3, e4, e5]
        exact h1
    · rintro ⟨i, hi, h1⟩
      cases i with
      | zero => left; simpa using h1
      | succ j =>
        right
        refine ⟨j, Nat.lt_of_succ_lt_succ hi, ?_⟩
        have e2 : y + ((j + 1 : Nat) : Int) = y + 1 + j := by push_cast; ring
        have e3 : x + ((j + 1 : Nat) : ℚ) * dx = x + dx + j * dx := by push_cast; ring
        have e4 : u + ((j + 1 : Nat) : ℚ) * du = u + du + j * du := by push_cast; ring
        have e5 : v + ((j + 1 : Nat) : ℚ) * dv = v + dv + j * dv := by push_cast; ring
        rw [e2, e3, e4, e5] at h1
        exact h1

theorem square_polyYmin : polyYmin square = 32 := by decide!

theorem square_polyEdges : polyEdges square =
    [(⟨32, 32, 0, 0⟩, ⟨96, 32, 1, 0⟩), (⟨96, 32, 1, 0⟩, ⟨96, 96, 1, 1⟩),
      (⟨96, 96, 1, 1⟩, ⟨32, 96, 0, 1⟩), (⟨32, 96, 0, 1⟩, ⟨32, 32, 0, 0⟩)] := by
  simp [polyEdges, square, List.range_succ]

theorem square_edge_right : edgeSetup ⟨96, 32, 1, 0⟩ ⟨96, 96, 1, 1⟩ =
    ⟨⟨96, 32, 1, 0⟩, ⟨96, 96, 1, 1⟩, 64, 0, 0, 1 / 64, 1, 96, 1, 1 / 64⟩ := by
  decide!

theorem square_edge_left : edgeSetup ⟨32, 96, 0, 1⟩ ⟨32, 32, 0, 0⟩ =
    ⟨⟨32, 32, 0, 0⟩, ⟨32, 96, 0, 1⟩, 64, 0, 0, 1 / 64, 1, 32, 0, 1 / 64⟩ := by
  decide!

/-- The pixel stores of the span branch in row `32 + i` of the square of `main`. -/
theorem square_fillRow (i : Nat) (xx y1 : Int) (g r : Nat) :
    Event.pixel xx y1 g r ∈ fillRow ⟨96 + (i : ℚ) * 0, ((32 + i : Int) : ℚ), 1 + (i : ℚ) * 0,
        1 / 64 + (i : ℚ) * (1 / 64)⟩ (32 + (i : ℚ) * 0) (32 + i) (0 + (i : ℚ) * 0)
        (1 / 64 + (i : ℚ) * (1 / 64)) ↔
      ∃ k : Nat, k < 64 ∧ xx = 32 + k ∧ y1 = 32 + i ∧
        g = toByte (64 * (((k : Int) + 1) / 16)) ∧ r = toByte (64 * (((i : Int) + 1) / 16)) := by
  have hgt : (96 : ℚ) > 32 := by norm_num
  have ht32 : truncToInt (32 : ℚ) = 32 := by decide!
  have ht96 : truncToInt (96 : ℚ) = 96 := by decide!
  have hcount : (min WIDTH 96 - 32).toNat = 64 := by decide
  have hfl32 : (⌊(32 : ℚ)⌋ : ℚ) = 32 := by
    have : ⌊(32 : ℚ)⌋ = 32 := by decide!
    rw [this]; norm_num
  simp only [fillRow, mul_zero, add_zero, hgt, if_true, List.mem_cons, reduceCtorEq,
    false_or, ht32, ht96, hcount, hfl32, colLoop_eq, List.mem_map, List.mem_range,
    Event.pixel.injEq]
  have hu : ∀ k : Nat, ⌊4 * (0 + (1 - 0) / (96 - 32) * (32 - 32 + 1) + (k : ℚ) *
      ((1 - 0) / (96 - 32)) : ℚ)⌋ = ((k : Int) + 1) / 16 := by
    intro k
    have e : (4 * (0 + (1 - 0) / (96 - 32) * (32 - 32 + 1) + (k : ℚ) *
        ((1 - 0) / (96 - 32))) : ℚ) = (((k : Int) + 1 : Int) : ℚ) / ((16 : Nat) : ℚ) := by
      push_cast; ring
    rw [e, Rat.floor_intCast_div_natCast]
    rfl
  have hv : ∀ k : Nat, ⌊4 * (1 / 64 + (i : ℚ) * (1 / 64) + (1 / 64 + (i : ℚ) * (1 / 64)
      - (1 / 64 + (i : ℚ) * (1 / 64))) / (96 - 32) * (32 - 32 + 1) + (k : ℚ) *
      ((1 / 64 + (i : ℚ) * (1 / 64) - (1 / 64 + (i : ℚ) * (1 / 64))) / (96 - 32)) : ℚ)⌋
      = ((i : Int) + 1) / 16 := by
    intro k
    have e : (4 * (1 / 64 + (i : ℚ) * (1 / 64) + (1 / 64 + (i : ℚ) * (1 / 64)
        - (1 / 64 + (i : ℚ) * (1 / 64))) / (96 - 32) * (32 - 32 + 1) + (k : ℚ) *
        ((1 / 64 + (i : ℚ) * (1 / 64) - (1 / 64 + (i : ℚ) * (1 / 64))) / (96 - 32))) : ℚ)
        = (((i : Int) + 1 : Int) : ℚ) / ((16 : Nat) : ℚ) := by
      push_cast; ring
    rw [e, Rat.floor_intCast_div_natCast]
    rfl
  simp only [hu, hv]
  constructor
  · rintro ⟨k, hk, h1, h2, h3, h4⟩
    exact ⟨k, hk, h1.symm, h2.symm, h3.symm, h4.symm⟩
  · rintro ⟨k, hk, h1, h2, h3, h4⟩
    exact ⟨k, hk, h1.symm, h2.symm, h3.symm, h4.symm⟩


theorem square_rows_right :
    (edgeSetup ⟨96, 32, 1, 0⟩ ⟨96, 96, 1, 1⟩).yStart = 32 ∧
    (edgeSetup ⟨96, 32, 1, 0⟩ ⟨96, 96, 1, 1⟩).yEnd = 96 := by
  decide!

theorem square_rows_left :
    (edgeSetup ⟨32, 96, 0, 1⟩ ⟨32, 32, 0, 0⟩).yStart = 32 ∧
    (edgeSetup ⟨32, 96, 0, 1⟩ ⟨32, 32, 0, 0⟩).yEnd = 96 := by
  decide!

/-- The pixel stores of the run on the square of `main`: one for each cell of the block
`32 <= xx < 96`, `32 <= y < 96`, with green `64 * floor((xx - 31) / 16)` and red
`64 * floor((y - 31) / 16)` as bytes. -/
theorem square_pixel_iff (xx y : Int) (g r : Nat) :
    Event.pixel xx y g r ∈ polyfillLog square ↔
      32 ≤ xx ∧ xx < 96 ∧ 32 ≤ y ∧ y < 96 ∧
      g = toByte (64 * ((xx - 31) / 16)) ∧ r = toByte (64 * ((y - 31) / 16)) := by
  have pe0 : ∀ sp, polyfillEdge 32 ⟨32, 32, 0, 0⟩ ⟨96, 32, 1, 0⟩ sp =
      (sp, [Event.edgeDiv 0, Event.edgeDiv 0, Event.edgeDiv 0]) :=
    fun sp => polyfillEdge_horizontal _ _ _ _ rfl
  have pe2 : ∀ sp, polyfillEdge 32 ⟨96, 96, 1, 1⟩ ⟨32, 96, 0, 1⟩ sp =
      (sp, [Event.edgeDiv 0, Event.edgeDiv 0, Event.edgeDiv 0]) :=
    fun sp => polyfillEdge_horizontal _ _ _ _ rfl
  have pe1 : ∀ sp, polyfillEdge 32 ⟨96, 32, 1, 0⟩ ⟨96, 96, 1, 1⟩ sp =
      ((rowLoop 32 0 0 (1 / 64) 64 32 96 1 (1 / 64) sp).1,
        Event.edgeDiv 64 :: Event.edgeDiv 64 :: Event.edgeDiv 64 ::
          (rowLoop 32 0 0 (1 / 64) 64 32 96 1 (1 / 64) sp).2) := by
    intro sp
    have hk : ((96 : Int) - 32).toNat = 64 := by decide
    simp only [polyfillEdge, square_rows_right.1, square_rows_right.2, hk]
    simp only [square_edge_right]
  have pe3 : ∀ sp, polyfillEdge 32 ⟨32, 96, 0, 1⟩ ⟨32, 32, 0, 0⟩ sp =
      ((rowLoop 32 0 0 (1 / 64) 64 32 32 0 (1 / 64) sp).1,
        Event.edgeDiv 64 :: Event.edgeDiv 64 :: Event.edgeDiv 64 ::
          (rowLoop 32 0 0 (1 / 64) 64 32 32 0 (1 / 64) sp).2) := by
    intro sp
    have hk : ((96 : Int) - 32).toNat = 64 := by decide
    simp only [polyfillEdge, square_rows_left.1, square_rows_left.2, hk]
    simp only [square_edge_left]
  obtain ⟨f1, f2⟩ := rowLoop_fresh 32 0 0 (1 / 64) 64 32 96 1 (1 / 64) Spans.init
    (fun _ _ => rfl)
  have hset : ∀ i : Nat, i < 64 →
      ((rowLoop 32 0 0 (1 / 64) 64 32 96 1 (1 / 64) Spans.init).1 (32 + i - 32)).1 = true := by
    intro i hi
    rw [f2 i hi]
  have hmem := pixel_mem_rowLoop_of_set 32 0 0 (1 / 64) xx y g r 64 32 32 0 (1 / 64)
    (rowLoop 32 0 0 (1 / 64) 64 32 96 1 (1 / 64) Spans.init).1 hset
  rw [polyfillLog, square_polyYmin, square_polyEdges]
  simp only [edgeLoop, pe0, pe1, pe2, pe3, List.mem_append, List.mem_cons, reduceCtorEq,
    false_or, List.not_mem_nil, or_false, hmem]
  constructor
  · rintro (h | ⟨i, hi, h⟩)
    · have := f1 _ h
      simp [isPixel] at this
    · rw [f2 i hi] at h
      obtain ⟨k, hk, rfl, rfl, rfl, rfl⟩ := (square_fillRow i xx y g r).1 h
      refine ⟨by omega, by omega, by omega, by omega, ?_, ?_⟩
      · congr 3; omega
      · congr 3; omega
  · rintro ⟨h1, h2, h3, h4, rfl, rfl⟩
    right
    refine ⟨(y - 32).toNat, by omega, ?_⟩
    rw [f2 _ (by omega)]
    rw [square_fillRow]
    refine ⟨(xx - 32).toNat, by omega, by omega, by omega, ?_, ?_⟩
    · congr 3; omega
    · congr 3; omega

theorem square_cell_iff (xx y : Int) : (∃ g r, Event.pixel xx y g r ∈ polyfillLog square) ↔
    32 ≤ xx ∧ xx < 96 ∧ 32 ≤ y ∧ y < 96 := by
  constructor
  · rintro ⟨g, r, h⟩
    obtain ⟨h1, h2, h3, h4, -, -⟩ := (square_pixel_iff xx y g r).1 h
    exact ⟨h1, h2, h3, h4⟩
  · rintro ⟨h1, h2, h3, h4⟩
    exact ⟨_, _, (square_pixel_iff xx y _ _).2 ⟨h1, h2, h3, h4, rfl, rfl⟩⟩

theorem square_cells_inside : ∀ xx y g r, Event.pixel xx y g r ∈ polyfillLog square →
    0 ≤ xx ∧ xx < 256 ∧ 0 ≤ y ∧ y < 128 := by
  intro xx y g r h
  have := (square_cell_iff xx y).1 ⟨g, r, h⟩
  omega

/-- The bytes of a cell of the block after the run on the square of `main`. -/
theorem square_lastStore (x y : Nat) (hx0 : 32 ≤ x) (hx1 : x < 96) (hy0 : 32 ≤ y)
    (hy1 : y < 96) :
    lastStore (byteStores (polyfillLog square)) (4 * (256 * y + x) + 0) = some 0 ∧
    lastStore (byteStores (polyfillLog square)) (4 * (256 * y + x) + 1) =
      some (toByte (64 * (((x : Int) - 31) / 16))) ∧
    lastStore (byteStores (polyfillLog square)) (4 * (256 * y + x) + 2) =
      some (toByte (64 * (((y : Int) - 31) / 16))) ∧
    lastStore (byteStores (polyfillLog square)) (4 * (256 * y + x) + 3) =
      some SDL_ALPHA_OPAQUE := by
  apply lastStore_cell _ square_cells_inside x y (by omega) (by omega)
  · exact (square_pixel_iff _ _ _ _).2 ⟨by omega, by omega, by omega, by omega, rfl, rfl⟩
  · intro g1 r1 h
    obtain ⟨-, -, -, -, h5, h6⟩ := (square_pixel_iff _ _ _ _).1 h
    exact ⟨h5, h6⟩

/-! ## Rows crossed twice -/

theorem foldl_min_attained (f : FPoint → Int) : ∀ (l : List FPoint) (init : Int),
    l.foldl (fun m p => min m (f p)) init = init ∨
      ∃ p ∈ l, f p = l.foldl (fun m p => min m (f p)) init
  | [], _ => Or.inl rfl
  | q :: l, init => by
    simp only [List.foldl_cons]
    rcases foldl_min_attained f l (min init (f q)) with h | ⟨p, hp, h⟩
    · rcases min_choice init (f q) with h1 | h1
      · left; rw [h, h1]
      · right; exact ⟨q, List.mem_cons_self _ _, by rw [h, h1]⟩
    · right; exact ⟨p, List.mem_cons_of_mem _ hp, h⟩

theorem foldl_max_attained (f : FPoint → Int) : ∀ (l : List FPoint) (init : Int),
    l.foldl (fun m p => max m (f p)) init = init ∨
      ∃ p ∈ l, f p = l.foldl (fun m p => max m (f p)) init
  | [], _ => Or.inl rfl
  | q :: l, init => by
    simp only [List.foldl_cons]
    rcases foldl_max_attained f l (max init (f q)) with h | ⟨p, hp, h⟩
    · rcases max_choice init (f q) with h1 | h1
      · left; rw [h, h1]
      · right; exact ⟨q, List.mem_cons_self _ _, by rw [h, h1]⟩
    · right; exact ⟨p, List.mem_cons_of_mem _ hp, h⟩

theorem floor_of_inside {p : FPoint} (h : insideBuffer p) : 0 ≤ ⌊p.y⌋ ∧ ⌊p.y⌋ < HEIGHT := by
  obtain ⟨_, _, h3, h4⟩ := h
  constructor
  · exact Int.floor_nonneg.2 h3
  · rw [Int.floor_lt]
    exact h4

/-- Between two vertices inside the buffer, the row loop of the edge visits row `r`
exactly when one of them lies above the line `y = r + 1` and the other does not. -/
theorem crossesRow_iff (r : Int) (a b : FPoint) (ha : insideBuffer a) (hb : insideBuffer b) :
    crossesRow r (a, b) = true ↔
      (decide (a.y < ((r + 1 : Int) : ℚ)) != decide (b.y < ((r + 1 : Int) : ℚ))) = true := by
  have fa := floor_of_inside ha
  have fb := floor_of_inside hb
  have la : ⌊a.y⌋ ≤ r ↔ a.y < ((r + 1 : Int) : ℚ) := by
    rw [← Int.floor_lt]; omega
  have lb : ⌊b.y⌋ ≤ r ↔ b.y < ((r + 1 : Int) : ℚ) := by
    rw [← Int.floor_lt]; omega
  simp only [crossesRow, decide_eq_true_eq, EdgeVars.yStart, EdgeVars.yEnd, edgeSetup_p1,
    edgeSetup_p0_y, bne_iff_ne, ne_eq, decide_eq_decide, ← la, ← lb]
  obtain ⟨_, _, ha3, _⟩ := ha
  obtain ⟨_, _, hb3, _⟩ := hb
  by_cases hab : a.y > b.y
  · have hfl : ⌊b.y⌋ ≤ ⌊a.y⌋ := Int.floor_le_floor (le_of_lt hab)
    simp only [hab, if_true, not_lt.2 hb3, if_false, lt_min_iff]
    constructor
    · intro h; omega
    · intro h; omega
  · have hfl : ⌊a.y⌋ ≤ ⌊b.y⌋ := Int.floor_le_floor (not_lt.1 hab)
    simp only [hab, if_false, not_lt.2 ha3, lt_min_iff]
    constructor
    · intro h; omega
    · intro h; omega

theorem mem_of_mem_zip {l1 l2 : List FPoint} {ed : FPoint × FPoint}
    (h : ed ∈ List.zip l1 l2) : ed.1 ∈ l1 ∧ ed.2 ∈ l2 := by
  obtain ⟨a, b⟩ := ed
  exact List.of_mem_zip h

/-- In a convex polygon inside the buffer, every row from `ymin` up to, but not
including, `ymax` is visited by the row loops of exactly two edges. -/
theorem crossings_eq_two (poly : List FPoint) (hconv : ConvexPolygon poly)
    (hin : ∀ p ∈ poly, insideBuffer p) (r : Int) (h1 : polyYmin poly ≤ r)
    (h2 : r < polyYmax poly) : List.countP (crossesRow r) (polyEdges poly) = 2 := by
  match poly, hconv, hin, h1, h2 with
  | [], _, _, h1, h2 =>
    simp only [polyYmin, polyYmax, List.foldl_nil, INT_MAX, INT_MIN] at h1 h2
    omega
  | v :: l, hconv, hin, h1, h2 =>
    have hv := floor_of_inside (hin v (List.mem_cons_self _ _))
    have hvmin := polyYmin_le (List.mem_cons_self v l)
    have hvmax := le_polyYmax (List.mem_cons_self v l)
    have hmin : ∃ p ∈ v :: l, ⌊p.y⌋ = polyYmin (v :: l) := by
      rcases foldl_min_attained (fun p => ⌊p.y⌋) (v :: l) INT_MAX with h | h
      · have : polyYmin (v :: l) = INT_MAX := h
        unfold INT_MAX HEIGHT at *
        omega
      · exact h
    have hmax : ∃ p ∈ v :: l, ⌊p.y⌋ = polyYmax (v :: l) := by
      rcases foldl_max_attained (fun p => ⌊p.y⌋) (v :: l) INT_MIN with h | h
      · have : polyYmax (v :: l) = INT_MIN := h
        unfold INT_MIN HEIGHT at *
        omega
      · exact h
    rw [polyEdges_cons]
    have hcongr : List.countP (crossesRow r) (List.zip (v :: l) (l ++ [v])) =
        List.countP (fun p => (fun q : FPoint => decide (q.y < ((r + 1 : Int) : ℚ))) p.1 !=
          (fun q : FPoint => decide (q.y < ((r + 1 : Int) : ℚ))) p.2)
          (List.zip (v :: l) (l ++ [v])) := by
      apply List.countP_congr
      intro ed hed
      obtain ⟨m1, m2⟩ := mem_of_mem_zip hed
      have hm2 : ed.2 ∈ v :: l := by
        rcases List.mem_append.1 m2 with h | h
        · exact List.mem_cons_of_mem _ h
        · rw [List.mem_singleton.1 h]; exact List.mem_cons_self _ _
      exact crossesRow_iff r ed.1 ed.2 (hin _ m1) (hin _ hm2)
    rw [hcongr]
    refine (countP_zip_changes (fun q : FPoint => decide (q.y < ((r + 1 : Int) : ℚ)))
      l v v).trans ?_
    have hmap : List.map (fun q : FPoint => decide (q.y < ((r + 1 : Int) : ℚ))) (v :: l ++ [v])
        = decide (v.y < ((r + 1 : Int) : ℚ)) ::
          List.map (fun q : FPoint => decide (q.y < ((r + 1 : Int) : ℚ))) l ++
            [decide (v.y < ((r + 1 : Int) : ℚ))] := by
      simp
    rw [hmap]
    apply changes_closed_eq_two
    · exact no_alternation (v :: l) hconv _ true
    · exact no_alternation (v :: l) hconv _ false
    · obtain ⟨p, hp, hpy⟩ := hmin
      have : List.map (fun q : FPoint => decide (q.y < ((r + 1 : Int) : ℚ))) (v :: l) =
          decide (v.y < ((r + 1 : Int) : ℚ)) ::
            List.map (fun q : FPoint => decide (q.y < ((r + 1 : Int) : ℚ))) l := rfl
      rw [← this, List.mem_map]
      refine ⟨p, hp, ?_⟩
      rw [decide_eq_true_eq, ← Int.floor_lt]
      omega
    · obtain ⟨p, hp, hpy⟩ := hmax
      have : List.map (fun q : FPoint => decide (q.y < ((r + 1 : Int) : ℚ))) (v :: l) =
          decide (v.y < ((r + 1 : Int) : ℚ)) ::
            List.map (fun q : FPoint => decide (q.y < ((r + 1 : Int) : ℚ))) l := rfl
      rw [← this, List.mem_map]
      refine ⟨p, hp, ?_⟩
      rw [decide_eq_false_iff_not, ← Int.floor_lt]
      omega

/-- No edge visits the last row `ymax` of the polygon. -/
theorem crossings_ymax (poly : List FPoint) :
    List.countP (crossesRow (polyYmax poly)) (polyEdges poly) = 0 := by
  rw [List.countP_eq_zero]
  intro ed hed
  obtain ⟨ha, hb⟩ := mem_polyEdges hed
  have := yEnd_le_polyYmax ha hb
  simp only [crossesRow, decide_eq_true_eq]
  omega


/-! ## What holds of every pixel store -/

theorem pixel_mem_rowBody {ymin y : Int} {x u v : ℚ} {sp : Spans} {xx y1 : Int} {g r : Nat}
    (h : Event.pixel xx y1 g r ∈ (rowBody ymin y x u v sp).2) : y1 = y ∧ xx < WIDTH := by
  unfold rowBody at h
  by_cases hs : (sp (y - ymin)).1 = true
  · simp only [hs, if_true, fillRow, List.mem_cons, reduceCtorEq, false_or] at h
    obtain ⟨i, hi, he⟩ := mem_colLoop h
    simp only [Event.pixel.injEq] at he
    obtain ⟨rfl, rfl, -, -⟩ := he
    refine ⟨rfl, ?_⟩
    have := min_le_left WIDTH (truncToInt
      (if (sp (y1 - ymin)).2.x > x then (sp (y1 - ymin)).2 else (⟨x, y1, u, v⟩ : FPoint)).x)
    omega
  · simp [hs] at h

theorem edgeSetup_yStart_nonneg (a b : FPoint) : 0 ≤ (edgeSetup a b).yStart := by
  unfold EdgeVars.yStart
  rw [edgeSetup_p0_y]
  split_ifs with h1 h2 h3
  · simp
  · exact Int.floor_nonneg.2 (not_lt.1 h2)
  · simp
  · exact Int.floor_nonneg.2 (not_lt.1 h3)

/-- Every pixel store of a run has its row inside the buffer and its column below
`WIDTH`: the rows are clipped at the top and clamped at the bottom, the columns are
clamped on the right. -/
theorem pixel_cell_bounds (poly : List FPoint) (xx y : Int) (g r : Nat)
    (h : Event.pixel xx y g r ∈ polyfillLog poly) : 0 ≤ y ∧ y < HEIGHT ∧ xx < WIDTH := by
  obtain ⟨ed, sp1, -, he1⟩ := mem_edgeLoop _ _ _ h
  rcases mem_polyfillEdge he1 with h1 | ⟨y1, x, u, v, sp2, hy1, hy2, he2⟩
  · cases h1
  · obtain ⟨rfl, hx⟩ := pixel_mem_rowBody he2
    have h0 := edgeSetup_yStart_nonneg ed.1 ed.2
    have h3 : (edgeSetup ed.1 ed.2).yEnd ≤ HEIGHT := min_le_left _ _
    exact ⟨by omega, by omega, hx⟩

/-! ## Rounding to float and rotate -/

/-- An integer is its own nearest integer. -/
theorem roundHalfEven_intCast (n : Int) : roundHalfEven (n : ℚ) = n := by
  simp [roundHalfEven]

/-- The nearest integer is the floor or the floor plus one. -/
theorem roundHalfEven_mem (r : ℚ) : roundHalfEven r = ⌊r⌋ ∨ roundHalfEven r = ⌊r⌋ + 1 := by
  unfold roundHalfEven
  split_ifs <;> simp

/-- Rounding does not pass an integer bound. -/
theorem abs_roundHalfEven_le (r : ℚ) (N : Int) (h : |r| < N) : |roundHalfEven r| ≤ N := by
  rw [abs_lt] at h
  have h1 : ⌊r⌋ < N := Int.floor_lt.2 h.2
  have h2 : -N ≤ ⌊r⌋ := Int.le_floor.2 (by push_cast; exact le_of_lt h.1)
  rw [abs_le]
  rcases roundHalfEven_mem r with e | e <;> rw [e] <;> constructor <;> omega

/-- A multiple `n * 2^(e - 23)` with `|n| <= 2^24` and `e >= -126` inside the finite range
is a `float`. -/
theorem f32_of_grid (n e : Int) (hn : |n| ≤ 2 ^ 24) (he : -126 ≤ e)
    (hr : |(n : ℚ) * 2 ^ (e - 23)| ≤ FLT_MAX) :
    f32 ((n : ℚ) * 2 ^ (e - 23)) = some ((n : ℚ) * 2 ^ (e - 23)) := by
  have key : ∃ m : Int, ((n : ℚ) * 2 ^ (e - 23)) /
      2 ^ (max (Int.log 2 |(n : ℚ) * 2 ^ (e - 23)|) (-126) - 23) = m := by
    generalize hL : Int.log 2 |(n : ℚ) * 2 ^ (e - 23)| = L
    by_cases h0 : n = 0
    · exact ⟨0, by simp [h0]⟩
    have hpos : (0 : ℚ) < |(n : ℚ) * 2 ^ (e - 23)| := by
      apply abs_pos.2
      apply mul_ne_zero
      · exact_mod_cast h0
      · exact zpow_ne_zero _ (by norm_num)
    have hle : ((2 : ℕ) : ℚ) ^ L ≤ |(n : ℚ) * 2 ^ (e - 23)| := by
      rw [← hL]; exact Int.zpow_log_le_self (by norm_num) hpos
    have habs : |(n : ℚ) * 2 ^ (e - 23)| = (|n| : Int) * 2 ^ (e - 23) := by
      rw [abs_mul, abs_of_pos (zpow_pos (by norm_num : (0:ℚ) < 2) (e - 23))]
      push_cast; rfl
    have hn24 : ((|n| : Int) : ℚ) ≤ 2 ^ (24 : Int) := by
      have : ((|n| : Int) : ℚ) ≤ ((2 ^ 24 : Int) : ℚ) := by exact_mod_cast hn
      norm_num at this ⊢
      exact this
    have hup : |(n : ℚ) * 2 ^ (e - 23)| ≤ 2 ^ (e + 1) := by
      rw [habs]
      have : (2 : ℚ) ^ (e + 1) = 2 ^ (24 : Int) * 2 ^ (e - 23) := by
        rw [← zpow_add₀ (by norm_num : (2:ℚ) ≠ 0)]; congr 1; ring
      rw [this]
      exact mul_le_mul_of_nonneg_right hn24 (le_of_lt (zpow_pos (by norm_num) _))
    have hLe : L ≤ e + 1 := by
      have : (2 : ℚ) ^ L ≤ 2 ^ (e + 1) := by
        have := le_trans hle hup
        simpa using this
      exact (zpow_le_zpow_iff_right₀ (by norm_num : (1 : ℚ) < 2)).1 this
    by_cases hc : max L (-126) ≤ e
    · refine ⟨n * 2 ^ (e - max L (-126)).toNat, ?_⟩
      have h2 : (2 : ℚ) ^ (e - 23) =
          2 ^ (max L (-126) - 23) * 2 ^ ((e - max L (-126)).toNat : Int) := by
        rw [← zpow_add₀ (by norm_num : (2:ℚ) ≠ 0)]; congr 1
        rw [Int.toNat_of_nonneg (by omega)]; ring
      rw [h2, zpow_natCast]
      have h3 : (2 : ℚ) ^ (max L (-126) - 23) ≠ 0 := zpow_ne_zero _ (by norm_num)
      field_simp
      ring
    · have hL1 : L = e + 1 := by
        rcases le_total L (-126) with h | h
        · rw [max_eq_right h] at hc; omega
        · rw [max_eq_left h] at hc; omega
      have hm : max L (-126) = e + 1 := by rw [hL1]; exact max_eq_left (by omega)
      rw [hm]
      have hge : (2 : ℚ) ^ (24 : Int) ≤ ((|n| : Int) : ℚ) := by
        have h4 : (2 : ℚ) ^ (e + 1) ≤ (|n| : Int) * 2 ^ (e - 23) := by
          rw [← habs, ← hL1]; simpa using hle
        have : (2 : ℚ) ^ (e + 1) = 2 ^ (24 : Int) * 2 ^ (e - 23) := by
          rw [← zpow_add₀ (by norm_num : (2:ℚ) ≠ 0)]; congr 1; ring
        rw [this] at h4
        exact le_of_mul_le_mul_right h4 (zpow_pos (by norm_num) _)
      have hge2 : (2 : Int) ^ 24 ≤ |n| := by
        have : ((2 ^ 24 : Int) : ℚ) ≤ ((|n| : Int) : ℚ) := by
          norm_num at hge ⊢
          exact hge
        exact_mod_cast this
      have hq : (2 : ℚ) ^ (e + 1 - 23) = 2 * 2 ^ (e - 23) := by
        have : e + 1 - 23 = 1 + (e - 23) := by ring
        rw [this, zpow_add₀ (by norm_num : (2:ℚ) ≠ 0)]; simp
      have h3 : (2 : ℚ) ^ (e - 23) ≠ 0 := zpow_ne_zero _ (by norm_num)
      have hn2 : |n| = 2 ^ 24 := le_antisymm hn hge2
      rcases abs_eq (by norm_num : (0 : Int) ≤ 2 ^ 24) |>.1 hn2 with h | h
      · refine ⟨2 ^ 23, ?_⟩
        rw [hq, h]; field_simp; norm_num; ring
      · refine ⟨-2 ^ 23, ?_⟩
        rw [hq, h]; field_simp; norm_num; ring
  obtain ⟨m, hm⟩ := key
  unfold f32
  simp only
  rw [hm, roundHalfEven_intCast, ← hm]
  have h3 : (2 : ℚ) ^ (max (Int.log 2 |(n : ℚ) * 2 ^ (e - 23)|) (-126) - 23) ≠ 0 :=
    zpow_ne_zero _ (by norm_num)
  rw [div_mul_cancel₀ _ h3, if_pos hr]

/-- Every value of `f32` is such a multiple. -/
theorem f32_grid {x r : ℚ} (h : f32 x = some r) :
    ∃ n e : Int, |n| ≤ 2 ^ 24 ∧ -126 ≤ e ∧ r = (n : ℚ) * 2 ^ (e - 23) ∧ |r| ≤ FLT_MAX := by
  unfold f32 at h
  simp only at h
  split_ifs at h with hr
  simp only [Option.some.injEq] at h
  refine ⟨roundHalfEven (x / 2 ^ (max (Int.log 2 |x|) (-126) - 23)), max (Int.log 2 |x|) (-126),
    ?_, le_max_right _ _, h.symm, h ▸ hr⟩
  apply abs_roundHalfEven_le
  have hq : (0 : ℚ) < 2 ^ (max (Int.log 2 |x|) (-126) - 23) := zpow_pos (by norm_num) _
  rw [abs_div, abs_of_pos hq, div_lt_iff₀ hq]
  have h1 : |x| < ((2 : ℕ) : ℚ) ^ (Int.log 2 |x| + 1) := Int.lt_zpow_succ_log_self (by norm_num) _
  have h2 : ((2 : ℕ) : ℚ) ^ (Int.log 2 |x| + 1) ≤ 2 ^ (max (Int.log 2 |x|) (-126) + 1) := by
    rw [Nat.cast_ofNat]
    exact (zpow_le_zpow_iff_right₀ (by norm_num : (1 : ℚ) < 2)).2
      (by have := le_max_left (Int.log 2 |x|) (-126); omega)
  have h3 : (2 : ℚ) ^ (max (Int.log 2 |x|) (-126) + 1) =
      ((2 ^ 24 : Int) : ℚ) * 2 ^ (max (Int.log 2 |x|) (-126) - 23) := by
    have : ((2 ^ 24 : Int) : ℚ) = 2 ^ (24 : Int) := by norm_num
    rw [this, ← zpow_add₀ (by norm_num : (2:ℚ) ≠ 0)]; congr 1; ring
  rw [← h3]
  exact lt_of_lt_of_le h1 h2

/-- A `float` is not changed by rounding it again. -/
theorem f32_idem {x r : ℚ} (h : f32 x = some r) : f32 r = some r := by
  obtain ⟨n, e, hn, he, rfl, hr⟩ := f32_grid h
  exact f32_of_grid n e hn he hr

/-- The integers up to `2^24` in absolute value are `float`s. -/
theorem f32_intCast (n : Int) (h1 : -16777216 ≤ n) (h2 : n ≤ 16777216) :
    f32 (n : ℚ) = some (n : ℚ) := by
  have hn : |n| ≤ 2 ^ 24 := by rw [abs_le]; constructor <;> norm_num <;> assumption
  have h := f32_of_grid n 23 hn (by norm_num) (by
    simp only [sub_self, zpow_zero, mul_one, FLT_MAX]
    have : ((|n| : Int) : ℚ) ≤ ((2 ^ 24 : Int) : ℚ) := by exact_mod_cast hn
    push_cast at this
    refine le_trans this ?_
    norm_num)
  simpa using h

/-- Zero is a `float`. -/
theorem f32_zero : f32 0 = some 0 := by
  simpa using f32_intCast 0 (by norm_num) (by norm_num)

/-- The value of `rotate` at `cs = 1`, `ss = 0`: the products by 1 and by 0 and the sums
with 0 are exact, so four roundings remain. -/
theorem rotate_one_zero (p center : FPoint) (hc : isF32 center.y) :
    rotate p center 1 0 =
      (f32 (p.x - center.x)).bind fun tx =>
      (f32 (p.y - center.y)).bind fun ty =>
      (f32 (center.x + tx)).bind fun x =>
      (f32 (center.y - ty)).bind fun y => some ⟨x, y, p.u, p.v⟩ := by
  unfold rotate
  cases h1 : f32 (p.x - center.x) with
  | none => rfl
  | some tx =>
    cases h2 : f32 (p.y - center.y) with
    | none => rfl
    | some ty =>
      simp only [Option.some_bind, one_mul, zero_mul, f32_idem h1, f32_idem h2, f32_zero,
        add_zero]
      cases h3 : f32 (center.x + tx) with
      | none => rfl
      | some x =>
        have hc2 : f32 center.y = some center.y := hc
        simp only [Option.some_bind, f32_idem h3, hc2]

/-! ## The claims -/

/-- C1 (the code at a failing input): on the rectangle `leftPoly`, whose left side lies at
`x = -2` and whose top side lies in row 0, the run stores a pixel for the cell `(-2, 0)`:
the column loop starts at `(int)x0.x` without a clamp to column 0.  The byte offset of
that cell, as an `unsigned int`, is 4294967288, far outside the buffer of 131072 bytes,
so the store falls outside the buffer. -/
theorem polyfill_left_overrun :
    Event.pixel (-2) 0 64 128 ∈ polyfillLog leftPoly ∧
    ¬ (0 ≤ (-2 : Int)) ∧
    pixelOffset (-2) 0 = 4294967288 ∧
    ¬ (pixelOffset (-2) 0 + 3 < NUM_BYTES) ∧
    polyfill Pixels.zero leftPoly = none := by
  refine ⟨by decide!, by decide, by decide!, by decide!, ?_⟩
  apply storeAll_none_of_mem _ _ (4294967288, 0)
  · decide!
  · simp [Pixels.zero, NUM_BYTES]

/-- C2 (counterexample): `rotate(p, center, 0)` for `p = (32, 32)` and `center = (64, 64)`,
where every operation is exact in `float`, returns the position `(32, 96)`: its `y` is
not that of `p`. -/
theorem rotate_zero_not_identity :
    rotate ⟨32, 32, 0, 0⟩ ⟨64, 64, 0, 0⟩ 1 0 = some ⟨32, 96, 0, 0⟩ ∧
    ¬ ∃ r, rotate ⟨32, 32, 0, 0⟩ ⟨64, 64, 0, 0⟩ 1 0 = some r ∧
      r.x = 32 ∧ r.y = 32 ∧ r.u = 0 ∧ r.v = 0 := by
  have hi : ∀ n : Int, -16777216 ≤ n → n ≤ 16777216 → f32 (n : ℚ) = some (n : ℚ) :=
    f32_intCast
  have h64 : f32 64 = some 64 := by simpa using hi 64 (by norm_num) (by norm_num)
  have h32 : f32 32 = some 32 := by simpa using hi 32 (by norm_num) (by norm_num)
  have hm32 : f32 (-32) = some (-32) := by simpa using hi (-32) (by norm_num) (by norm_num)
  have h96 : f32 96 = some 96 := by simpa using hi 96 (by norm_num) (by norm_num)
  have h : rotate ⟨32, 32, 0, 0⟩ ⟨64, 64, 0, 0⟩ 1 0 = some ⟨32, 96, 0, 0⟩ := by
    rw [rotate_one_zero ⟨32, 32, 0, 0⟩ ⟨64, 64, 0, 0⟩ h64]
    norm_num [hm32, h32, h96]
  refine ⟨h, ?_⟩
  rintro ⟨r, hr, -, hy, -⟩
  rw [h] at hr
  injection hr with hr
  subst hr
  norm_num at hy

/-- C2 (amended): for every vertex `p` and every pivot `center` whose `y` is a `float`,
`rotate(p, center, 0)` (with `cos 0 = 1` and `sin 0 = 0`) returns
`x = fl(center.x + fl(p.x - center.x))`, `y = fl(center.y - fl(p.y - center.y))`,
`u = p.u` and `v = p.v`, where `fl` rounds to `float`, as long as none of these four
operations overflows.  When `p.x - center.x`, `p.y - center.y`, `p.x` and
`2 * center.y - p.y` are `float`s, this is `x = p.x` and `y = 2 * center.y - p.y`, the
mirror image of `p.y` about the pivot. -/
theorem rotate_zero (p center : FPoint) (hc : isF32 center.y) :
    rotate p center 1 0 =
      ((f32 (p.x - center.x)).bind fun tx =>
      (f32 (p.y - center.y)).bind fun ty =>
      (f32 (center.x + tx)).bind fun x =>
      (f32 (center.y - ty)).bind fun y => some ⟨x, y, p.u, p.v⟩) ∧
    (isF32 (p.x - center.x) → isF32 (p.y - center.y) → isF32 p.x →
      isF32 (2 * center.y - p.y) →
      rotate p center 1 0 = some ⟨p.x, 2 * center.y - p.y, p.u, p.v⟩) := by
  refine ⟨rotate_one_zero p center hc, ?_⟩
  intro h1 h2 h3 h4
  have e1 : center.x + (p.x - center.x) = p.x := by ring
  have e2 : center.y - (p.y - center.y) = 2 * center.y - p.y := by ring
  have h1a : f32 (p.x - center.x) = some (p.x - center.x) := h1
  have h2a : f32 (p.y - center.y) = some (p.y - center.y) := h2
  have h3a : f32 p.x = some p.x := h3
  have h4a : f32 (2 * center.y - p.y) = some (2 * center.y - p.y) := h4
  rw [rotate_one_zero p center hc]
  simp only [h1a, h2a, Option.some_bind, e1, e2, h3a, h4a]

/-- C2 (witness): `p = (32, 32)` about `center = (64, 64)`; the differences `-32`, the
coordinate `32` and the mirror image `96` are `float`s. -/
theorem rotate_zero_witness :
    isF32 (⟨64, 64, 0, 0⟩ : FPoint).y ∧
    isF32 ((⟨32, 32, 0, 0⟩ : FPoint).x - (⟨64, 64, 0, 0⟩ : FPoint).x) ∧
    isF32 ((⟨32, 32, 0, 0⟩ : FPoint).y - (⟨64, 64, 0, 0⟩ : FPoint).y) ∧
    isF32 (⟨32, 32, 0, 0⟩ : FPoint).x ∧
    isF32 (2 * (⟨64, 64, 0, 0⟩ : FPoint).y - (⟨32, 32, 0, 0⟩ : FPoint).y) ∧
    rotate ⟨32, 32, 0, 0⟩ ⟨64, 64, 0, 0⟩ 1 0 =
      some ⟨(⟨32, 32, 0, 0⟩ : FPoint).x,
        2 * (⟨64, 64, 0, 0⟩ : FPoint).y - (⟨32, 32, 0, 0⟩ : FPoint).y, 0, 0⟩ := by
  have hi : ∀ n : Int, -16777216 ≤ n → n ≤ 16777216 → isF32 (n : ℚ) := f32_intCast
  have a1 : isF32 (⟨64, 64, 0, 0⟩ : FPoint).y := by
    simpa using hi 64 (by norm_num) (by norm_num)
  have a2 : isF32 ((⟨32, 32, 0, 0⟩ : FPoint).x - (⟨64, 64, 0, 0⟩ : FPoint).x) := by
    have := hi (-32) (by norm_num) (by norm_num)
    norm_num at this ⊢
    exact this
  have a3 : isF32 ((⟨32, 32, 0, 0⟩ : FPoint).y - (⟨64, 64, 0, 0⟩ : FPoint).y) := by
    have := hi (-32) (by norm_num) (by norm_num)
    norm_num at this ⊢
    exact this
  have a4 : isF32 (⟨32, 32, 0, 0⟩ : FPoint).x := by
    simpa using hi 32 (by norm_num) (by norm_num)
  have a5 : isF32 (2 * (⟨64, 64, 0, 0⟩ : FPoint).y - (⟨32, 32, 0, 0⟩ : FPoint).y) := by
    have := hi 96 (by norm_num) (by norm_num)
    norm_num at this ⊢
    exact this
  exact ⟨a1, a2, a3, a4, a5, (rotate_zero ⟨32, 32, 0, 0⟩ ⟨64, 64, 0, 0⟩ a1).2 a2 a3 a4 a5⟩

/-- C3: the run on the square of `main` over the zeroed buffer of 256 x 128 x 4 bytes
succeeds; the cells it stores pixels to are exactly those with `32 <= x < 96` and
`32 <= y < 96`; afterwards the alpha byte of each of these cells is 255 and the four
bytes of every other cell of the buffer are 0. -/
theorem square_fill_block : ∃ out, polyfill Pixels.zero square = some out ∧
    out.size = NUM_BYTES ∧
    (∀ xx y : Int, (∃ g r, Event.pixel xx y g r ∈ polyfillLog square) ↔
      32 ≤ xx ∧ xx < 96 ∧ 32 ≤ y ∧ y < 96) ∧
    (∀ x y : Nat, x < 256 → y < 128 →
      if 32 ≤ x ∧ x < 96 ∧ 32 ≤ y ∧ y < 96 then
        out.getD (4 * (256 * y + x) + 3) 0 = 255
      else
        ∀ k : Nat, k < 4 → out.getD (4 * (256 * y + x) + k) 0 = 0) := by
  obtain ⟨out, hout⟩ := storeAll_byteStores_isSome (polyfillLog square) Pixels.zero
    (by simp [Pixels.zero]) square_cells_inside
  refine ⟨out, hout, ?_, square_cell_iff, ?_⟩
  · rw [storeAll_size _ _ _ hout]
    simp [Pixels.zero]
  · intro x y hx hy
    split_ifs with hb
    · obtain ⟨g, r, hmem⟩ := (square_cell_iff x y).2 (by omega)
      rw [storeAll_getD _ _ _ _ _ hout, zero_getD]
      have : lastStore (byteStores (polyfillLog square)) (4 * (256 * y + x) + 3)
          = some SDL_ALPHA_OPAQUE := by
        apply lastStore_const
        · refine ⟨(pixelOffset x y + 3, SDL_ALPHA_OPAQUE), ?_, ?_⟩
          · rw [mem_byteStores]
            exact ⟨x, y, g, r, hmem, Or.inr (Or.inr (Or.inr rfl))⟩
          · have := pixelOffset_of_cell (x : Int) (y : Int) (by omega)
              (by omega) (by omega) (by omega)
            simp only
            omega
        · intro s hs heq
          obtain ⟨xx, y1, g1, r1, hmem1, hs⟩ := (mem_byteStores _ s).1 hs
          have hm := pixelOffset_mod xx y1
          rcases hs with rfl | rfl | rfl | rfl <;> simp only at heq ⊢ <;> omega
      rw [this]
      rfl
    · intro k hk
      rw [storeAll_getD _ _ _ _ _ hout, zero_getD,
        lastStore_untouched _ square_cells_inside x y k hx hk]
      · rfl
      · intro g r hmem
        have := (square_cell_iff x y).1 ⟨g, r, hmem⟩
        omega

/-- C4 (counterexample): after the run on the square of `main` the pixel at
`(95, 95)` does not have green 192 and red 192. -/
theorem square_corner_not_192 : ¬ ∃ out, polyfill Pixels.zero square = some out ∧
    out.getD (4 * (256 * 32 + 32) + 1) 0 = 0 ∧
    out.getD (4 * (256 * 32 + 32) + 2) 0 = 0 ∧
    out.getD (4 * (256 * 95 + 95) + 1) 0 = 192 ∧
    out.getD (4 * (256 * 95 + 95) + 2) 0 = 192 := by
  rintro ⟨out, hout, -, -, h, -⟩
  have h2 := square_lastStore 95 95 (by omega) (by omega) (by omega) (by omega)
  rw [storeAll_getD _ _ _ _ _ hout, h2.2.1] at h
  revert h
  decide

/-- C4 (amended): after the run on the square of `main` over the zeroed buffer, the
pixel at `(32, 32)` has blue, green and red 0; the pixel at `(95, 95)` has blue, green
and red 0 as well (there `u = v = 1`, and `64 * floor(4 * 1) = 256` is 0 as a byte); the
pixel at `(94, 94)` has blue 0, green 192 and red 192. -/
theorem square_corner_colours : ∃ out, polyfill Pixels.zero square = some out ∧
    out.getD (4 * (256 * 32 + 32) + 0) 0 = 0 ∧
    out.getD (4 * (256 * 32 + 32) + 1) 0 = 0 ∧
    out.getD (4 * (256 * 32 + 32) + 2) 0 = 0 ∧
    out.getD (4 * (256 * 95 + 95) + 0) 0 = 0 ∧
    out.getD (4 * (256 * 95 + 95) + 1) 0 = 0 ∧
    out.getD (4 * (256 * 95 + 95) + 2) 0 = 0 ∧
    out.getD (4 * (256 * 94 + 94) + 0) 0 = 0 ∧
    out.getD (4 * (256 * 94 + 94) + 1) 0 = 192 ∧
    out.getD (4 * (256 * 94 + 94) + 2) 0 = 192 := by
  obtain ⟨out, hout⟩ := storeAll_byteStores_isSome (polyfillLog square) Pixels.zero
    (by simp [Pixels.zero]) square_cells_inside
  have h1 := square_lastStore 32 32 (by omega) (by omega) (by omega) (by omega)
  have h2 := square_lastStore 95 95 (by omega) (by omega) (by omega) (by omega)
  have h3 := square_lastStore 94 94 (by omega) (by omega) (by omega) (by omega)
  refine ⟨out, hout, ?_, ?_, ?_, ?_, ?_, ?_, ?_, ?_, ?_⟩
  · rw [storeAll_getD _ _ _ _ _ hout, h1.1]; rfl
  · rw [storeAll_getD _ _ _ _ _ hout, h1.2.1]; decide
  · rw [storeAll_getD _ _ _ _ _ hout, h1.2.2.1]; decide
  · rw [storeAll_getD _ _ _ _ _ hout, h2.1]; rfl
  · rw [storeAll_getD _ _ _ _ _ hout, h2.2.1]; decide
  · rw [storeAll_getD _ _ _ _ _ hout, h2.2.2.1]; decide
  · rw [storeAll_getD _ _ _ _ _ hout, h3.1]; rfl
  · rw [storeAll_getD _ _ _ _ _ hout, h3.2.1]; decide
  · rw [storeAll_getD _ _ _ _ _ hout, h3.2.2.1]; decide

/-- C5 (counterexample): the square of `main` is convex and lies inside the buffer, but
its last row `ymax = 96` is crossed by no edge iteration, so it is not true that every
row from `ymin` to `ymax` is crossed twice and filled once. -/
theorem row_pairing_fails_at_ymax :
    ConvexPolygon square ∧ (∀ p ∈ square, insideBuffer p) ∧
    ¬ (∀ r : Int, polyYmin square ≤ r → r ≤ polyYmax square →
      List.countP (isRowAt r) (polyfillLog square) = 2 ∧
      List.countP (isFillAt r) (polyfillLog square) = 1) := by
  refine ⟨by decide!, by decide!, ?_⟩
  intro h
  have h96 := h (polyYmax square) (by decide!) (le_refl _)
  obtain ⟨d1, _, _⟩ := countP_edgeLoop (polyYmax square) (polyYmin square)
    (polyEdges square) Spans.init
  have : List.countP (isRowAt (polyYmax square)) (polyfillLog square) = 0 := by
    rw [polyfillLog, d1, crossings_ymax]
  omega

/-- C5 (amended): for every convex simple polygon (vertices in boundary order, at
pairwise different positions and not all collinear) whose vertices all lie inside the
buffer, every row `r` with `ymin <= r < ymax` is visited by the row loops of exactly two
edge iterations (two row events in the run) and the span branch is entered for it exactly
once; the last row `ymax` is visited by no edge iteration. -/
theorem row_pairing (poly : List FPoint) (hconv : ConvexPolygon poly)
    (hin : ∀ p ∈ poly, insideBuffer p) (r : Int) (h1 : polyYmin poly ≤ r)
    (h2 : r < polyYmax poly) :
    List.countP (crossesRow r) (polyEdges poly) = 2 ∧
    List.countP (isRowAt r) (polyfillLog poly) = 2 ∧
    List.countP (isFillAt r) (polyfillLog poly) = 1 ∧
    List.countP (isRowAt (polyYmax poly)) (polyfillLog poly) = 0 := by
  have hc := crossings_eq_two poly hconv hin r h1 h2
  obtain ⟨c1, c2, _⟩ := countP_edgeLoop r (polyYmin poly) (polyEdges poly) Spans.init
  obtain ⟨d1, _, _⟩ := countP_edgeLoop (polyYmax poly) (polyYmin poly) (polyEdges poly)
    Spans.init
  refine ⟨hc, ?_, ?_, ?_⟩
  · rw [polyfillLog, c1, hc]
  · rw [polyfillLog, c2, hc]
    simp [Spans.init]
  · rw [polyfillLog, d1, crossings_ymax]

/-- C5 (witness): the square of `main` and its row 32. -/
theorem row_pairing_witness :
    ConvexPolygon square ∧ (∀ p ∈ square, insideBuffer p) ∧ polyYmin square ≤ 32 ∧
    32 < polyYmax square ∧
    List.countP (crossesRow 32) (polyEdges square) = 2 ∧
    List.countP (isRowAt 32) (polyfillLog square) = 2 ∧
    List.countP (isFillAt 32) (polyfillLog square) = 1 ∧
    List.countP (isRowAt (polyYmax square)) (polyfillLog square) = 0 :=
  ⟨by decide!, by decide!, by decide!, by decide!,
    row_pairing square (by decide!) (by decide!) 32 (by decide!) (by decide!)⟩

/-- C6 (counterexample): the run on the square of `main`, which has two horizontal
edges, performs a division by `dy = 0`. -/
theorem horizontal_edge_divides_by_zero :
    ¬ (∀ dy, Event.edgeDiv dy ∈ polyfillLog square → dy ≠ 0) := by
  intro h
  exact h 0 (by decide!) rfl

/-- C6 (amended): for every horizontal edge (`p0.y == p1.y`) the three divisions that
compute `dx`, `du`, `dv` are performed with the divisor `dy = 0`.  The row range of the
edge is empty, so its row loop runs no iteration whatever values `dx`, `du`, `dv` and
the start values `x`, `u`, `v` have: the edge logs nothing but the three divisions (no
row, no span-table access, no pixel store), leaves the span table as it is, and visits
no row. -/
theorem horizontal_edge (ymin : Int) (a b : FPoint) (sp : Spans) (h : a.y = b.y) :
    (edgeSetup a b).dy = 0 ∧
    (edgeSetup a b).yEnd ≤ (edgeSetup a b).yStart ∧
    (∀ dx du dv x u v : ℚ,
      rowLoop ymin dx du dv ((edgeSetup a b).yEnd - (edgeSetup a b).yStart).toNat
        (edgeSetup a b).yStart x u v sp = (sp, [])) ∧
    polyfillEdge ymin a b sp = (sp, [Event.edgeDiv 0, Event.edgeDiv 0, Event.edgeDiv 0]) ∧
    ∀ r : Int, crossesRow r (a, b) = false := by
  have hrows := edgeSetup_horizontal_rows h
  refine ⟨edgeSetup_horizontal_dy h, hrows, ?_, polyfillEdge_horizontal ymin a b sp h, ?_⟩
  · intro dx du dv x u v
    have h0 : ((edgeSetup a b).yEnd - (edgeSetup a b).yStart).toNat = 0 := by omega
    rw [h0]
    rfl
  · intro r
    simp only [crossesRow, decide_eq_false_iff_not]
    omega

/-- C6 (witness): the top edge of the square of `main`. -/
theorem horizontal_edge_witness :
    (⟨32, 32, 0, 0⟩ : FPoint).y = (⟨96, 32, 1, 0⟩ : FPoint).y ∧
    (edgeSetup ⟨32, 32, 0, 0⟩ ⟨96, 32, 1, 0⟩).dy = 0 ∧
    (edgeSetup ⟨32, 32, 0, 0⟩ ⟨96, 32, 1, 0⟩).yEnd ≤
      (edgeSetup ⟨32, 32, 0, 0⟩ ⟨96, 32, 1, 0⟩).yStart ∧
    (∀ dx du dv x u v : ℚ,
      rowLoop 32 dx du dv ((edgeSetup ⟨32, 32, 0, 0⟩ ⟨96, 32, 1, 0⟩).yEnd -
          (edgeSetup ⟨32, 32, 0, 0⟩ ⟨96, 32, 1, 0⟩).yStart).toNat
        (edgeSetup ⟨32, 32, 0, 0⟩ ⟨96, 32, 1, 0⟩).yStart x u v Spans.init =
        (Spans.init, [])) ∧
    polyfillEdge 32 ⟨32, 32, 0, 0⟩ ⟨96, 32, 1, 0⟩ Spans.init =
      (Spans.init, [Event.edgeDiv 0, Event.edgeDiv 0, Event.edgeDiv 0]) ∧
    ∀ r : Int, crossesRow r (⟨32, 32, 0, 0⟩, ⟨96, 32, 1, 0⟩) = false :=
  ⟨rfl, horizontal_edge 32 ⟨32, 32, 0, 0⟩ ⟨96, 32, 1, 0⟩ Spans.init rfl⟩

/-- C7: for every edge from `a` with `a.y < 0` to `b` with `b.y > 0`, given in either
order, the row loop visits exactly the rows `0 <= y < min(HEIGHT, floor(b.y))`, none
below 0, and at row `y` it uses the point of the line through the unclipped `a` and `b`
at height `y + 1`: `a + (y + 1 - a.y) * (dx, du, dv)` with the deltas of the unclipped
edge. -/
theorem top_clip_rows (ymin : Int) (a b : FPoint) (sp : Spans) (ha : a.y < 0) (hb : 0 < b.y)
    (y : Int) (x u v : ℚ) :
    (Event.row y x u v ∈ (polyfillEdge ymin a b sp).2 ↔
      0 ≤ y ∧ y < min HEIGHT ⌊b.y⌋ ∧
      x = a.x + (y + 1 - a.y) * ((b.x - a.x) / (b.y - a.y)) ∧
      u = a.u + (y + 1 - a.y) * ((b.u - a.u) / (b.y - a.y)) ∧
      v = a.v + (y + 1 - a.y) * ((b.v - a.v) / (b.y - a.y))) ∧
    polyfillEdge ymin b a sp = polyfillEdge ymin a b sp ∧
    (edgeSetup a b).dx = (b.x - a.x) / (b.y - a.y) ∧
    (edgeSetup a b).du = (b.u - a.u) / (b.y - a.y) ∧
    (edgeSetup a b).dv = (b.v - a.v) / (b.y - a.y) := by
  have hab : a.y < b.y := lt_trans ha hb
  have hn : ¬ a.y > b.y := not_lt.2 (le_of_lt hab)
  refine ⟨?_, polyfillEdge_swap ymin hab sp, ?_, ?_, ?_⟩
  · rw [edge_row_iff ymin a b sp hab]
    have hfl : ⌊a.y⌋ ≤ 0 := by
      have := Int.floor_le_floor (le_of_lt ha)
      simpa using this
    rw [max_eq_left hfl]
  · simp only [edgeSetup, hn, if_false]
  · simp only [edgeSetup, hn, if_false]
  · simp only [edgeSetup, hn, if_false]

/-- C7 (witness): the edge from `(0, -50)` to `(100, 50)` at row 0. -/
theorem top_clip_rows_witness :
    (⟨0, -50, 0, 0⟩ : FPoint).y < 0 ∧ 0 < (⟨100, 50, 1, 1⟩ : FPoint).y ∧
    ((Event.row 0 51 (51 / 100) (51 / 100) ∈
        (polyfillEdge (-50) ⟨0, -50, 0, 0⟩ ⟨100, 50, 1, 1⟩ Spans.init).2 ↔
      (0 : Int) ≤ 0 ∧ (0 : Int) < min HEIGHT ⌊(⟨100, 50, 1, 1⟩ : FPoint).y⌋ ∧
      (51 : ℚ) = (⟨0, -50, 0, 0⟩ : FPoint).x + (((0 : Int) : ℚ) + 1 - (⟨0, -50, 0, 0⟩ : FPoint).y) *
        (((⟨100, 50, 1, 1⟩ : FPoint).x - (⟨0, -50, 0, 0⟩ : FPoint).x) /
          ((⟨100, 50, 1, 1⟩ : FPoint).y - (⟨0, -50, 0, 0⟩ : FPoint).y)) ∧
      (51 / 100 : ℚ) = (⟨0, -50, 0, 0⟩ : FPoint).u + (((0 : Int) : ℚ) + 1 - (⟨0, -50, 0, 0⟩ : FPoint).y) *
        (((⟨100, 50, 1, 1⟩ : FPoint).u - (⟨0, -50, 0, 0⟩ : FPoint).u) /
          ((⟨100, 50, 1, 1⟩ : FPoint).y - (⟨0, -50, 0, 0⟩ : FPoint).y)) ∧
      (51 / 100 : ℚ) = (⟨0, -50, 0, 0⟩ : FPoint).v + (((0 : Int) : ℚ) + 1 - (⟨0, -50, 0, 0⟩ : FPoint).y) *
        (((⟨100, 50, 1, 1⟩ : FPoint).v - (⟨0, -50, 0, 0⟩ : FPoint).v) /
          ((⟨100, 50, 1, 1⟩ : FPoint).y - (⟨0, -50, 0, 0⟩ : FPoint).y))) ∧
    polyfillEdge (-50) ⟨100, 50, 1, 1⟩ ⟨0, -50, 0, 0⟩ Spans.init =
      polyfillEdge (-50) ⟨0, -50, 0, 0⟩ ⟨100, 50, 1, 1⟩ Spans.init ∧
    (edgeSetup ⟨0, -50, 0, 0⟩ ⟨100, 50, 1, 1⟩).dx =
      ((⟨100, 50, 1, 1⟩ : FPoint).x - (⟨0, -50, 0, 0⟩ : FPoint).x) /
        ((⟨100, 50, 1, 1⟩ : FPoint).y - (⟨0, -50, 0, 0⟩ : FPoint).y) ∧
    (edgeSetup ⟨0, -50, 0, 0⟩ ⟨100, 50, 1, 1⟩).du =
      ((⟨100, 50, 1, 1⟩ : FPoint).u - (⟨0, -50, 0, 0⟩ : FPoint).u) /
        ((⟨100, 50, 1, 1⟩ : FPoint).y - (⟨0, -50, 0, 0⟩ : FPoint).y) ∧
    (edgeSetup ⟨0, -50, 0, 0⟩ ⟨100, 50, 1, 1⟩).dv =
      ((⟨100, 50, 1, 1⟩ : FPoint).v - (⟨0, -50, 0, 0⟩ : FPoint).v) /
        ((⟨100, 50, 1, 1⟩ : FPoint).y - (⟨0, -50, 0, 0⟩ : FPoint).y)) :=
  ⟨by decide!, by decide!,
    top_clip_rows (-50) ⟨0, -50, 0, 0⟩ ⟨100, 50, 1, 1⟩ Spans.init (by decide!) (by decide!)
      0 51 (51 / 100) (51 / 100)⟩

/-- C8 (counterexample): for the polygon without vertices the size expression
`ymax - ymin + 1` is `INT_MIN - INT_MAX + 1`: it is negative and outside the range of
`int`. -/
theorem empty_polygon_table_size :
    ¬ (0 ≤ spanTableSize [] ∧ fitsInt (polyYmax [] - polyYmin []) ∧
      fitsInt (spanTableSize [])) := by
  decide!

/-- C8 (amended): for every polygon with fewer than 3 vertices the run stores no pixel
and returns the buffer as it was, and every span-table index it uses lies in
`[0, ymax - ymin + 1)`; with 1 or 2 vertices the table size `ymax - ymin + 1` is at least
1, and it is computed within the range of `int` when `ymax - ymin < INT_MAX`. -/
theorem few_vertices (poly : List FPoint) (pixels : Pixels) (h : poly.length < 3) :
    (∀ e ∈ polyfillLog poly, isPixel e = false) ∧
    polyfill pixels poly = some pixels ∧
    (∀ idx, (Event.spanRead idx ∈ polyfillLog poly ∨ Event.spanWrite idx ∈ polyfillLog poly) →
      0 ≤ idx ∧ idx < spanTableSize poly) ∧
    (poly ≠ [] → 1 ≤ spanTableSize poly ∧
      (polyYmax poly - polyYmin poly < INT_MAX →
        fitsInt (polyYmax poly - polyYmin poly) ∧ fitsInt (spanTableSize poly))) := by
  have hno := no_pixel_of_length_lt_three poly h
  refine ⟨hno, ?_, spanIndex_bounds poly, ?_⟩
  · rw [polyfill, byteStores_of_no_pixel _ hno]
    rfl
  · intro hne
    obtain ⟨v, hv⟩ := List.exists_mem_of_ne_nil poly hne
    have h1 := polyYmin_le hv
    have h2 := le_polyYmax hv
    unfold spanTableSize fitsInt INT_MIN INT_MAX
    refine ⟨by omega, fun h3 => ?_⟩
    unfold INT_MAX at h3
    omega

/-- C8 (witness): the polygon of the two vertices `(10, 10)` and `(20, 30)`. -/
theorem few_vertices_witness :
    ([⟨10, 10, 0, 0⟩, ⟨20, 30, 1, 1⟩] : List FPoint).length < 3 ∧
    ((∀ e ∈ polyfillLog [⟨10, 10, 0, 0⟩, ⟨20, 30, 1, 1⟩], isPixel e = false) ∧
    polyfill Pixels.zero [⟨10, 10, 0, 0⟩, ⟨20, 30, 1, 1⟩] = some Pixels.zero ∧
    (∀ idx, (Event.spanRead idx ∈ polyfillLog [⟨10, 10, 0, 0⟩, ⟨20, 30, 1, 1⟩] ∨
        Event.spanWrite idx ∈ polyfillLog [⟨10, 10, 0, 0⟩, ⟨20, 30, 1, 1⟩]) →
      0 ≤ idx ∧ idx < spanTableSize [⟨10, 10, 0, 0⟩, ⟨20, 30, 1, 1⟩]) ∧
    (([⟨10, 10, 0, 0⟩, ⟨20, 30, 1, 1⟩] : List FPoint) ≠ [] →
      1 ≤ spanTableSize [⟨10, 10, 0, 0⟩, ⟨20, 30, 1, 1⟩] ∧
      (polyYmax [⟨10, 10, 0, 0⟩, ⟨20, 30, 1, 1⟩] - polyYmin [⟨10, 10, 0, 0⟩, ⟨20, 30, 1, 1⟩]
          < INT_MAX →
        fitsInt (polyYmax [⟨10, 10, 0, 0⟩, ⟨20, 30, 1, 1⟩] -
          polyYmin [⟨10, 10, 0, 0⟩, ⟨20, 30, 1, 1⟩]) ∧
        fitsInt (spanTableSize [⟨10, 10, 0, 0⟩, ⟨20, 30, 1, 1⟩])))) :=
  ⟨by decide, few_vertices [⟨10, 10, 0, 0⟩, ⟨20, 30, 1, 1⟩] Pixels.zero (by decide)⟩

/-- C10: for every polygon, every read and every write `spans[y - ymin]` of the run has
`0 <= y - ymin < ymax - ymin + 1`, the size of the span table, whichever edge and row it
comes from and whether or not the edge was clipped to row 0; when `ymax - ymin < INT_MAX`
the index and the size are in the range of `int`. -/
theorem span_access_in_range (poly : List FPoint) (idx : Int)
    (h : Event.spanRead idx ∈ polyfillLog poly ∨ Event.spanWrite idx ∈ polyfillLog poly) :
    0 ≤ idx ∧ idx < spanTableSize poly ∧
    (polyYmax poly - polyYmin poly < INT_MAX → fitsInt idx ∧ fitsInt (spanTableSize poly)) := by
  obtain ⟨h1, h2⟩ := spanIndex_bounds poly idx h
  refine ⟨h1, h2, fun h3 => ?_⟩
  unfold spanTableSize at h2 ⊢
  unfold fitsInt INT_MIN INT_MAX
  unfold INT_MAX at h3
  omega

/-- C10 (witness): the last span-table index of the run on the square of `main`. -/
theorem span_access_in_range_witness :
    (Event.spanRead 63 ∈ polyfillLog square ∨ Event.spanWrite 63 ∈ polyfillLog square) ∧
      (0 : Int) ≤ 63 ∧ (63 : Int) < spanTableSize square ∧
      (polyYmax square - polyYmin square < INT_MAX →
        fitsInt 63 ∧ fitsInt (spanTableSize square)) :=
  ⟨by decide!, span_access_in_range square 63 (by decide!)⟩

end SdlEngine
